import Mathlib

/-!
# Verification of the RWJigsaw growth engine

Shallow embedding of the random-walk jigsaw generator (class `Dot`, class
`Jigsaw` with `border_mask`, `circle_mask`, `initiate_pieces`, `step`, `steps`
and `complete`).  The grid is modelled as a total function from integer
coordinates to `Dot` records; mutation becomes functional update.  All
randomness (`np.random.shuffle`, `np.random.choice`, `np.random.rand`) is
supplied by an explicit oracle: `np.random.choice(free, 1)[0]` is modelled by
indexing the free list with an arbitrary oracle number reduced mod its length,
`np.random.rand() < grow_prop` is modelled by a per-cell Boolean (which is
constantly `false` for `grow_prop = 0` and constantly `true` for
`grow_prop = 1`, since `np.random.rand()` lies in `[0, 1)`), and
`np.random.shuffle` by an oracle list transformer together with the hypothesis
that it permutes its input.  Floating point arithmetic (`np.sqrt`
comparisons) is embedded exactly over `ℚ` via the equivalences
`sqrt s < m ↔ 0 < m ∧ s < m ^ 2` and `sqrt s > m ↔ m < 0 ∨ m ^ 2 < s`
for `s ≥ 0`, treating the source's real-number formulas as exact arithmetic.
-/

namespace RWJigsaw

/-- A grid coordinate `(i, j)`. -/
abbrev Coord := ℤ × ℤ

/-- The state of one grid cell, mirroring class `Dot`.  The source also stores
`coords` (always equal to the grid index the dot is stored at), the derived
list `neighbors` (recomputed here by `nbr` from the coordinate) and the
transient scratch field `free_neighbors` (write-only across steps, recomputed
from scratch inside `step`); those derived fields are not duplicated in the
record. -/
structure Dot where
  color : Option ℤ
  active : Bool
  empty : Bool
  bonds : List ℕ
  deriving DecidableEq, Repr

/-- A freshly constructed `Dot(i, j)`. -/
def mkDot : Dot := { color := none, active := true, empty := true, bonds := [] }

/-- The grid: a total map from coordinates to cells.  The simulation only ever
reads or writes coordinates inside `[0, res) × [0, res)` (this is proved as an
invariant), where this model agrees with the numpy array of the source. -/
abbrev Grid := Coord → Dot

/-- Functional update of one cell, modelling mutation of `self.jigsaw[p]`. -/
def update (g : Grid) (p : Coord) (d : Dot) : Grid :=
  fun q => if q = p then d else g q

/-- The four diagonal neighbor shifts, in the source's fixed rotational order
`[(1, 1), (-1, 1), (-1, -1), (1, -1)]`. -/
def neighborShifts : List Coord := [(1, 1), (-1, 1), (-1, -1), (1, -1)]

/-- The source's `d.neighbors[k]`: the coordinate of the `k`-th diagonal neighbor. -/
def nbr (p : Coord) (k : ℕ) : Coord :=
  let s := neighborShifts.getD k (0, 0)
  (p.1 + s.1, p.2 + s.2)

/-- The coordinate `coords + (0, 1)` (`upper_n` in `step`). -/
def upC (p : Coord) : Coord := (p.1, p.2 + 1)

/-- The coordinate `coords + (0, -1)` (`lower_n` in `step`). -/
def lowC (p : Coord) : Coord := (p.1, p.2 - 1)

/-- The full simulation state, mirroring class `Jigsaw`.  The field `res`
stores the side length `R = res + 2` exactly as `self.res` does. -/
structure Jigsaw where
  res : ℕ
  num_pieces : ℕ
  grid : Grid
  active_cells : List Coord

/-- Mark a cell as border/mask: `active = False`, `empty = False`. -/
def wallify (d : Dot) : Dot := { d with active := false, empty := false }

/-- The coordinates written by `border_mask`:
`for i in range(res): for (x, y) in [(i, 0), (i, -1), (0, i), (-1, i)]`, with
numpy index `-1` denoting `res - 1`. -/
def borderCoords (R : ℕ) : List Coord :=
  (List.range R).flatMap fun i =>
    [((i : ℤ), 0), ((i : ℤ), (R : ℤ) - 1), (0, (i : ℤ)), ((R : ℤ) - 1, (i : ℤ))]

/-- Apply `wallify` at each coordinate of the list in order (`border_mask`). -/
def wallFold (g : Grid) (ps : List Coord) : Grid :=
  ps.foldl (fun g p => update g p (wallify (g p))) g

/-- All grid coordinates in row-major order:
`for i in range(res): for j in range(res)`. -/
def allCoords (R : ℕ) : List Coord :=
  (List.range R).flatMap fun (i : ℕ) =>
    (List.range R).map fun (j : ℕ) => ((i : ℤ), (j : ℤ))

/-- The mask test of `circle_mask`: with `x = i - res/2 + 1/2` and
`y = j - res/2 + 1/2`, the source walls the cell when
`np.sqrt(x**2 + y**2) > res/2 - 1.1`.  Over exact arithmetic this is
equivalent to `res/2 - 1.1 < 0 ∨ (res/2 - 1.1)^2 < x^2 + y^2`. -/
def circCond (R : ℕ) (p : Coord) : Bool :=
  let x : ℚ := (p.1 : ℚ) - (R : ℚ) / 2 + 1 / 2
  let y : ℚ := (p.2 : ℚ) - (R : ℚ) / 2 + 1 / 2
  decide ((R : ℚ) / 2 - 1.1 < 0) || decide (((R : ℚ) / 2 - 1.1) ^ 2 < x ^ 2 + y ^ 2)

/-- The method `circle_mask`: walk all cells in row-major order and wall those passing
the distance test. -/
def circFold (g : Grid) (R : ℕ) : Grid :=
  (allCoords R).foldl (fun g p => if circCond R p then update g p (wallify (g p)) else g) g

/-- The constructor `Jigsaw.__init__(res, bordertype)`: build an `(res+2) × (res+2)` grid of
fresh dots, then apply `circle_mask` (for `bordertype = 'circ'`, here
`circ = true`) or `border_mask`. -/
def mkJigsaw (res : ℕ) (circ : Bool) : Jigsaw :=
  let R := res + 2
  let base : Grid := fun _ => mkDot
  { res := R
    num_pieces := 0
    grid := if circ then circFold base R else wallFold base (borderCoords R)
    active_cells := [] }

/-- The module-level function `get_color(Dot)`: `-1` for empty-and-inactive,
`0` for empty-and-active, otherwise the stored color (possibly `None`). -/
def get_color (d : Dot) : Option ℤ :=
  if d.empty then (if d.active = false then some (-1) else some 0) else d.color

/-- The oracle feeding the pseudo-random choices of one `step` invocation. -/
structure Oracle where
  shuffle : List Coord → List Coord
  pickIdx : Coord → ℕ
  grow : Coord → Bool

/-- Faithfulness condition: `np.random.shuffle` permutes the list it is given. -/
def OracleOK (o : Oracle) : Prop := ∀ l : List Coord, List.Perm (o.shuffle l) l

/-- Replace the grow coin by the constant `true`: the semantics of
`np.random.rand() < grow_prop` at the default `grow_prop = 1`. -/
def forceGrow (o : Oracle) : Oracle := { o with grow := fun _ => true }

/-- The working set `d.free_neighbors` before bond filtering: the indices `i < 4` whose
diagonal neighbor cell is currently empty, in increasing order. -/
def freeNeighbors (g : Grid) (coo : Coord) : List ℕ :=
  (List.range 4).filter fun i => (g (nbr coo i)).empty

/-- One bond-blocking filter of `step`: when the guarding bond is present,
drop the blocked index `j` from the working free list, else keep it. -/
def remIf (c : Prop) [Decidable c] (j : ℕ) (l : List ℕ) : List ℕ :=
  if c then l.filter (fun i => i ≠ j) else l

/-- The working set `d.free_neighbors` after the four bond-blocking filters of `step`, in
source order: a bond `3` on the upper neighbor removes index `0`, then a bond
`2` removes index `1`; a bond `1` on the lower neighbor removes index `2`,
then a bond `0` removes index `3`. -/
def filteredFree (g : Grid) (coo : Coord) : List ℕ :=
  remIf (0 ∈ (g (lowC coo)).bonds) 3
    (remIf (1 ∈ (g (lowC coo)).bonds) 2
      (remIf (2 ∈ (g (upC coo)).bonds) 1
        (remIf (3 ∈ (g (upC coo)).bonds) 0 (freeNeighbors g coo))))

/-- The body of the `for coo in self.active_cells` loop of `step`, threading
the pair (grid, `new_active_cells`).  When the filtered free set is empty the
cell is deactivated and dropped; otherwise a neighbor is chosen
(`np.random.choice` modelled by oracle index mod length) and, when the grow
coin fires, claimed: it receives the grower's color, becomes active and
non-empty, and the reciprocal bond pair is recorded; the claimed coordinate
and then the grower are appended to `new_active_cells`.  Without growth only
the grower is re-appended. -/
def processCell (o : Oracle) (st : Grid × List Coord) (coo : Coord) : Grid × List Coord :=
  let g := st.1
  let na := st.2
  let d := g coo
  let free := filteredFree g coo
  if free = [] then
    (update g coo { d with active := false }, na)
  else
    let nb_idx := free.getD (o.pickIdx coo % free.length) 0
    if o.grow coo then
      let tgt := nbr coo nb_idx
      let nl := g tgt
      let g1 := update g tgt
        { nl with color := d.color, active := true, empty := false,
                  bonds := nl.bonds ++ [(nb_idx + 2) % 4] }
      let d1 := g1 coo
      let g2 := update g1 coo { d1 with bonds := d1.bonds ++ [nb_idx] }
      (g2, na ++ [tgt, coo])
    else
      (g, na ++ [coo])

/-- One generation `Jigsaw.step`: shuffle the active list, process each cell
in the shuffled order, and replace the active list with the rebuilt one. -/
def step (o : Oracle) (s : Jigsaw) : Jigsaw :=
  let shuffled := o.shuffle s.active_cells
  let r := shuffled.foldl (processCell o) (s.grid, ([] : List Coord))
  { s with grid := r.1, active_cells := r.2 }

/-- The loop `Jigsaw.steps`: iterate `step` over a list of per-generation oracles
(the list length is the step budget), breaking as soon as the active list is
empty, exactly like `for _ in range(steps): self.step(); if not
self.active_cells: break`. -/
def runSteps : List Oracle → Jigsaw → Jigsaw
  | [], s => s
  | o :: os, s =>
      let s1 := step o s
      if s1.active_cells = [] then s1 else runSteps os s1

/-- The synthetic filler color hard-coded by `complete` (`d.color = 1000`). -/
def fillerColor : ℤ := 1000

/-- The body of the double loop of `complete` at one coordinate: a cell that
is still empty-and-active is claimed into the filler piece, appended to the
active list, and up to 1000 growth generations are run from there —
`self.steps(1000)` uses `step`'s default `grow_prop = 1`, whence the grow
coins are forced to `true`. -/
def completeCell (co : List Oracle) (s : Jigsaw) (p : Coord) : Jigsaw :=
  let d := s.grid p
  if d.empty && d.active then
    runSteps ((co.take 1000).map forceGrow)
      { s with grid := update s.grid p { d with empty := false, color := some fillerColor },
               active_cells := s.active_cells ++ [p] }
  else s

/-- The method `Jigsaw.complete`: sweep all cells in row-major order. -/
def complete (co : Coord → List Oracle) (s : Jigsaw) : Jigsaw :=
  (allCoords s.res).foldl (fun st p => completeCell (co p) st p) s

/-- The claimed intermediate state inside `completeCell`. -/
def fillClaim (s : Jigsaw) (p : Coord) : Jigsaw :=
  { s with
    grid := update s.grid p ({ s.grid p with empty := false, color := some fillerColor })
    active_cells := s.active_cells ++ [p] }

/-- Squared Euclidean distance between two coordinates (a natural number). -/
def sqDist (p q : Coord) : ℤ := (p.1 - q.1) ^ 2 + (p.2 - q.2) ^ 2

/-- The source's `dist < min_dist`, i.e. `sqrt s < m`, embedded exactly:
`sqrt s < m ↔ 0 < m ∧ s < m ^ 2` (as `sqrt s ≥ 0`). -/
def distLt (s : ℤ) (m : ℚ) : Bool :=
  decide (0 < m) && decide ((s : ℚ) < m ^ 2)

/-- The `too_close` check of `initiate_pieces`: some already-active cell lies
at distance `< min_dist` from the sampled index. -/
def tooClose (actives : List Coord) (idx : Coord) (md : ℚ) : Bool :=
  actives.any fun p => distLt (sqDist idx p) md

/-- The successful branch of a seeding attempt: `d.color = c`,
`d.empty = False`, `self.active_cells.append(d.coords)`. -/
def seedClaim (s : Jigsaw) (idx : Coord) (c : ℤ) : Jigsaw :=
  { s with grid := update s.grid idx { s.grid idx with color := some c, empty := false },
           active_cells := s.active_cells ++ [idx] }

/-- A sampled index is good for seeding when it is not too close to any
already-active cell and its cell is unclaimed (`empty`) and not walled
(`active`): exactly the acceptance test of `initiate_pieces`. -/
def goodB (s : Jigsaw) (md : ℚ) (idx : Coord) : Bool :=
  !tooClose s.active_cells idx md && ((s.grid idx).empty && (s.grid idx).active)

/-- The retry loop of `initiate_pieces` for one piece: walk the (at most 1000)
sampled indices in order; a too-close sample is skipped, a sample that is
empty-and-active is claimed and ends the loop, anything else is skipped; an
exhausted sample list leaves the state untouched (silent failure, no
exception). -/
def trySeed (samples : List Coord) (md : ℚ) (c : ℤ) (s : Jigsaw) : Jigsaw :=
  match samples with
  | [] => s
  | idx :: rest =>
      if tooClose s.active_cells idx md then trySeed rest md c s
      else
        if (s.grid idx).empty && (s.grid idx).active then seedClaim s idx c
        else trySeed rest md c s

/-- The real piece ids walked by `initiate_pieces`:
`for c in range(1, num_pieces + 1)`. -/
def pieceIds (n : ℕ) : List ℤ := (List.range n).map fun (k : ℕ) => (k : ℤ) + 1

/-- The 1000 sampled coordinates for one piece:
`tuple(np.random.choice(self.res, 2))` yields entries in `[0, res)`,
modelled by reducing the oracle's raw numbers mod `R`. -/
def mkSamples (R : ℕ) (f : ℕ → ℕ × ℕ) : List Coord :=
  (List.range 1000).map fun t => (((f t).1 % R : ℕ), (((f t).2 % R : ℕ) : ℤ))

/-- The seeder `Jigsaw.initiate_pieces(num_pieces, min_dist)`: record `num_pieces`, then
seed each piece id in turn with its own 1000-sample budget. -/
def initiatePieces (sample : ℤ → ℕ → ℕ × ℕ) (md : ℚ) (n : ℕ) (s : Jigsaw) : Jigsaw :=
  (pieceIds n).foldl (fun st c => trySeed (mkSamples st.res (sample c)) md c st)
    { s with num_pieces := n }

/-- One top-level mutating operation of the simulation, with the conditions
that make the random oracles faithful (`np.random.shuffle` permutes). -/
inductive Next : Jigsaw → Jigsaw → Prop where
  | step (o : Oracle) (ho : OracleOK o) (s : Jigsaw) : Next s (step o s)
  | seed (sample : ℤ → ℕ → ℕ × ℕ) (md : ℚ) (n : ℕ) (s : Jigsaw) :
      Next s (initiatePieces sample md n s)
  | complete (co : Coord → List Oracle) (hco : ∀ p, ∀ o ∈ co p, OracleOK o) (s : Jigsaw) :
      Next s (complete co s)

/-- The states the simulation can reach: a freshly constructed grid followed
by any sequence of seeding, growth-step and completion operations. -/
inductive Reach : Jigsaw → Prop where
  | init (res : ℕ) (circ : Bool) : Reach (mkJigsaw res circ)
  | next {s t : Jigsaw} : Reach s → Next s t → Reach t

/-- Membership of `p` in the `R × R` grid. -/
def inGrid (R : ℕ) (p : Coord) : Prop :=
  0 ≤ p.1 ∧ p.1 < R ∧ 0 ≤ p.2 ∧ p.2 < R

instance (R : ℕ) (p : Coord) : Decidable (inGrid R p) := by
  unfold inGrid; infer_instance

/-- Statement that `p` lies on the outermost ring of the `R × R` grid. -/
def onRing (R : ℕ) (p : Coord) : Prop :=
  p.1 = 0 ∨ p.1 = (R : ℤ) - 1 ∨ p.2 = 0 ∨ p.2 = (R : ℤ) - 1

/-- Statement that `p` is an interior (non-ring) coordinate of the grid. -/
def interior (R : ℕ) (p : Coord) : Prop :=
  1 ≤ p.1 ∧ p.1 ≤ (R : ℤ) - 2 ∧ 1 ≤ p.2 ∧ p.2 ≤ (R : ℤ) - 2

/-- A cell in the observable walled configuration: `active = False` and
`empty = False`. -/
def walled (s : Jigsaw) (p : Coord) : Prop :=
  (s.grid p).active = false ∧ (s.grid p).empty = false

instance (s : Jigsaw) (p : Coord) : Decidable (walled s p) := by
  unfold walled; infer_instance

/-- Bond reciprocity: every bond `k` of a cell is answered by a bond
`(k + 2) % 4` on the neighbor it points to. -/
def BondRecip (s : Jigsaw) : Prop :=
  ∀ (p : Coord) (k : ℕ), k ∈ (s.grid p).bonds → (k + 2) % 4 ∈ (s.grid (nbr p k)).bonds

/-- The number of still-empty cells of the grid. -/
def ecount (R : ℕ) (g : Grid) : ℕ :=
  ((allCoords R).filter fun p => (g p).empty).length

/-- The neighbor index `np.random.choice` returns inside `step`'s grow
branch: the oracle number reduced mod the length of the filtered free list. -/
def chosenIdx (o : Oracle) (g : Grid) (coo : Coord) : ℕ :=
  (filteredFree g coo).getD (o.pickIdx coo % (filteredFree g coo).length) 0

/-- The grid after the grow branch of `processCell` for cell `coo`: the chosen
neighbor receives the grower's color, `active = True`, `empty = False` and the
bond `(k + 2) % 4`; the grower receives the bond `k`. -/
def growGrid (o : Oracle) (g : Grid) (coo : Coord) : Grid :=
  let k := chosenIdx o g coo
  let tgt := nbr coo k
  let nl := g tgt
  let g1 := update g tgt
    { nl with color := (g coo).color, active := true, empty := false,
              bonds := nl.bonds ++ [(k + 2) % 4] }
  update g1 coo { g1 coo with bonds := (g1 coo).bonds ++ [k] }

/-- The growth fold of `step` over an already-shuffled cell list. -/
def stepFold (o : Oracle) (L : List Coord) (g : Grid) (na : List Coord) : Grid × List Coord :=
  L.foldl (processCell o) (g, na)

/-- Bond reciprocity as a property of a bare grid. -/
def GBondRecip (g : Grid) : Prop :=
  ∀ (p : Coord) (k : ℕ), k ∈ (g p).bonds → (k + 2) % 4 ∈ (g (nbr p k)).bonds

/-- Colored cells are non-empty, as a property of a bare grid. -/
def GColorNE (g : Grid) : Prop :=
  ∀ p : Coord, (g p).color ≠ none → (g p).empty = false

/-- A deterministic oracle used to instantiate theorems on concrete runs:
the shuffle leaves the list as is, the pick number is `0` (select the first
free neighbor) and the grow coin is the constant `g`. -/
def idOracle (g : Bool) : Oracle :=
  { shuffle := id, pickIdx := fun _ => 0, grow := fun _ => g }

/-- A seeding sample stream that always proposes the cell `(2, 2)`. -/
def seedAt22 : ℤ → ℕ → ℕ × ℕ := fun _ _ => (2, 2)

/-- A small concrete board: `Jigsaw(res=3)` with the rectangular border,
hence a `5 × 5` grid whose interior is `3 × 3`. -/
def jig3 : Jigsaw := mkJigsaw 3 false

/-- The board `jig3` after seeding one piece at `(2, 2)`. -/
def sSeeded : Jigsaw := initiatePieces seedAt22 0 1 jig3

/-- Color evolution relation: assuming colored cells of `a` are non-empty,
`b` keeps every assigned color of `a` (and colored cells stay non-empty). -/
def ColorMono (a b : Jigsaw) : Prop :=
  GColorNE a.grid →
    GColorNE b.grid ∧
      ∀ (p : Coord) (c : ℤ), (a.grid p).color = some c → (b.grid p).color = some c

/-- Backward evolution relation: a cell that is empty in the later state `b`
was already empty in `a`, and if it is moreover still active in `b` it was
active in `a`.  (Emptiness is never re-created, and `active` can only become
`true` together with `empty` becoming `false`.) -/
def BackMono (a b : Jigsaw) : Prop :=
  ∀ p : Coord, (b.grid p).empty = true →
    (a.grid p).empty = true ∧ ((b.grid p).active = true → (a.grid p).active = true)

/-- The well-formedness invariant maintained by every reachable state. -/
structure WF (s : Jigsaw) : Prop where
  hres : 2 ≤ s.res
  ringW : ∀ p, inGrid s.res p → onRing s.res p → (s.grid p).empty = false
  activeInt : ∀ p ∈ s.active_cells, interior s.res p
  activeNE : ∀ p ∈ s.active_cells, (s.grid p).empty = false
  emptyActive : ∀ p, (s.grid p).empty = true → (s.grid p).active = true
  colorNE : ∀ p, (s.grid p).color ≠ none → (s.grid p).empty = false

/-! ## Basic lemmas about updates, neighbors and the free-neighbor filter -/

theorem update_self (g : Grid) (p : Coord) (d : Dot) : update g p d p = d := by
  simp [update]

theorem update_other (g : Grid) (p q : Coord) (d : Dot) (h : q ≠ p) : update g p d q = g q := by
  simp [update, h]

theorem getD_mod_mem (l : List ℕ) (i : ℕ) (h : l ≠ []) : l.getD (i % l.length) 0 ∈ l := by
  have hlen : 0 < l.length := List.length_pos.mpr h
  have hi : i % l.length < l.length := Nat.mod_lt _ hlen
  rw [List.getD_eq_getElem?_getD, List.getElem?_eq_getElem hi]
  exact List.getElem_mem hi

theorem mem_freeNeighbors {g : Grid} {coo : Coord} {i : ℕ} :
    i ∈ freeNeighbors g coo ↔ i < 4 ∧ (g (nbr coo i)).empty = true := by
  simp [freeNeighbors, List.mem_filter, List.mem_range]

theorem mem_remIf {c : Prop} [Decidable c] {j : ℕ} {l : List ℕ} {i : ℕ} :
    i ∈ remIf c j l ↔ i ∈ l ∧ ¬(c ∧ i = j) := by
  unfold remIf
  split_ifs with hc
  · simp [List.mem_filter, hc]
  · simp [hc]

theorem mem_filteredFree {g : Grid} {coo : Coord} {i : ℕ} :
    i ∈ filteredFree g coo ↔
      i ∈ freeNeighbors g coo ∧
      ¬(i = 0 ∧ 3 ∈ (g (upC coo)).bonds) ∧
      ¬(i = 1 ∧ 2 ∈ (g (upC coo)).bonds) ∧
      ¬(i = 2 ∧ 1 ∈ (g (lowC coo)).bonds) ∧
      ¬(i = 3 ∧ 0 ∈ (g (lowC coo)).bonds) := by
  unfold filteredFree
  simp only [mem_remIf]
  tauto

theorem filteredFree_lt_four {g : Grid} {coo : Coord} {i : ℕ}
    (h : i ∈ filteredFree g coo) : i < 4 :=
  (mem_freeNeighbors.mp (mem_filteredFree.mp h).1).1

theorem filteredFree_empty_tgt {g : Grid} {coo : Coord} {i : ℕ}
    (h : i ∈ filteredFree g coo) : (g (nbr coo i)).empty = true :=
  (mem_freeNeighbors.mp (mem_filteredFree.mp h).1).2

theorem nbr_nbr {k : ℕ} (hk : k < 4) (p : Coord) : nbr (nbr p k) ((k + 2) % 4) = p := by
  interval_cases k <;>
    simp [nbr, neighborShifts, Prod.ext_iff]

theorem nbr_ne {k : ℕ} (hk : k < 4) (p : Coord) : nbr p k ≠ p := by
  interval_cases k <;>
    simp [nbr, neighborShifts, Prod.ext_iff]

theorem inGrid_nbr {R : ℕ} {p : Coord} {k : ℕ} (hp : interior R p) (hk : k < 4) :
    inGrid R (nbr p k) := by
  obtain ⟨h1, h2, h3, h4⟩ := hp
  interval_cases k <;>
    simp [nbr, neighborShifts, inGrid] <;> omega

/-! ## Characterization of the constructed grid -/

theorem wallify_idem (d : Dot) : wallify (wallify d) = wallify d := rfl

theorem wallFold_apply (ps : List Coord) (g : Grid) (q : Coord) :
    wallFold g ps q = if q ∈ ps then wallify (g q) else g q := by
  induction ps generalizing g with
  | nil => simp [wallFold]
  | cons p rest ih =>
      have hstep : wallFold g (p :: rest) = wallFold (update g p (wallify (g p))) rest := rfl
      rw [hstep, ih]
      by_cases hqp : q = p
      · subst hqp
        by_cases hqr : q ∈ rest <;>
          simp [hqr, update_self, wallify_idem, List.mem_cons]
      · by_cases hqr : q ∈ rest <;>
          simp [hqr, update_other _ _ _ _ hqp, List.mem_cons, hqp]

theorem condWallFold_apply (cond : Coord → Bool) (ps : List Coord) (g : Grid) (q : Coord) :
    (ps.foldl (fun g p => if cond p then update g p (wallify (g p)) else g) g) q
      = if q ∈ ps ∧ cond q = true then wallify (g q) else g q := by
  induction ps generalizing g with
  | nil => simp
  | cons p rest ih =>
      rw [List.foldl_cons, ih]
      by_cases hc : cond p
      · simp only [hc, if_true]
        by_cases hqp : q = p
        · subst hqp
          by_cases hqr : q ∈ rest ∧ cond q = true <;>
            simp_all [update_self, wallify_idem, List.mem_cons]
        · by_cases hqr : q ∈ rest ∧ cond q = true <;>
            simp_all [update_other _ _ _ _ hqp, List.mem_cons]
      · simp only [hc, if_false]
        by_cases hqp : q = p
        · subst hqp
          by_cases hqr : q ∈ rest ∧ cond q = true <;>
            simp_all [List.mem_cons]
        · by_cases hqr : q ∈ rest ∧ cond q = true <;>
            simp_all [List.mem_cons, hqp]

theorem mem_allCoords {R : ℕ} {p : Coord} : p ∈ allCoords R ↔ inGrid R p := by
  obtain ⟨a, b⟩ := p
  unfold allCoords inGrid
  simp only [List.mem_flatMap, List.mem_map, List.mem_range, Prod.mk.injEq]
  constructor
  · rintro ⟨i, hi, j, hj, h1, h2⟩
    omega
  · rintro ⟨h1, h2, h3, h4⟩
    exact ⟨a.toNat, by omega, b.toNat, by omega, by omega, by omega⟩

theorem mem_borderCoords {R : ℕ} {p : Coord} :
    p ∈ borderCoords R ↔
      ((0 ≤ p.1 ∧ p.1 < R) ∧ (p.2 = 0 ∨ p.2 = (R : ℤ) - 1)) ∨
      ((p.1 = 0 ∨ p.1 = (R : ℤ) - 1) ∧ (0 ≤ p.2 ∧ p.2 < R)) := by
  unfold borderCoords
  simp only [List.mem_flatMap, List.mem_range, List.mem_cons, List.mem_singleton,
    List.not_mem_nil, or_false]
  constructor
  · rintro ⟨i, hi, h⟩
    obtain ⟨a, b⟩ := p
    rcases h with h | h | h | h <;>
      (rw [Prod.mk.injEq] at h; obtain ⟨rfl, rfl⟩ := h) <;>
      [left; left; right; right] <;> constructor <;> omega
  · intro h
    obtain ⟨a, b⟩ := p
    rcases h with ⟨⟨ha0, haR⟩, hb | hb⟩ | ⟨ha | ha, hb0, hbR⟩
    · exact ⟨a.toNat, by omega, by left; rw [Prod.mk.injEq]; omega⟩
    · exact ⟨a.toNat, by omega, by right; left; rw [Prod.mk.injEq]; omega⟩
    · exact ⟨b.toNat, by omega, by right; right; left; rw [Prod.mk.injEq]; omega⟩
    · exact ⟨b.toNat, by omega, by right; right; right; rw [Prod.mk.injEq]; omega⟩

theorem mkJigsaw_res (res : ℕ) (circ : Bool) : (mkJigsaw res circ).res = res + 2 := by
  cases circ <;> rfl

theorem mkJigsaw_active (res : ℕ) (circ : Bool) : (mkJigsaw res circ).active_cells = [] := by
  cases circ <;> rfl

theorem mkJigsaw_rect_grid (res : ℕ) (q : Coord) :
    (mkJigsaw res false).grid q =
      if q ∈ borderCoords (res + 2) then wallify mkDot else mkDot := by
  show wallFold (fun _ => mkDot) (borderCoords (res + 2)) q = _
  rw [wallFold_apply]

theorem mkJigsaw_circ_grid (res : ℕ) (q : Coord) :
    (mkJigsaw res true).grid q =
      if q ∈ allCoords (res + 2) ∧ circCond (res + 2) q = true then wallify mkDot
      else mkDot := by
  show circFold (fun _ => mkDot) (res + 2) q = _
  unfold circFold
  rw [condWallFold_apply]

theorem mkJigsaw_bonds (res : ℕ) (circ : Bool) (q : Coord) :
    ((mkJigsaw res circ).grid q).bonds = [] := by
  cases circ
  · rw [mkJigsaw_rect_grid]; split <;> rfl
  · rw [mkJigsaw_circ_grid]; split <;> rfl

theorem mkJigsaw_color (res : ℕ) (circ : Bool) (q : Coord) :
    ((mkJigsaw res circ).grid q).color = none := by
  cases circ
  · rw [mkJigsaw_rect_grid]; split <;> rfl
  · rw [mkJigsaw_circ_grid]; split <;> rfl

theorem mkJigsaw_empty_iff_active (res : ℕ) (circ : Bool) (q : Coord) :
    ((mkJigsaw res circ).grid q).empty = ((mkJigsaw res circ).grid q).active := by
  cases circ
  · rw [mkJigsaw_rect_grid]; split <;> rfl
  · rw [mkJigsaw_circ_grid]; split <;> rfl

/-! ## The three branches of `processCell` -/

theorem processCell_dead {o : Oracle} {g : Grid} {na : List Coord} {coo : Coord}
    (h : filteredFree g coo = []) :
    processCell o (g, na) coo = (update g coo { g coo with active := false }, na) := by
  simp [processCell, h]

theorem processCell_grow {o : Oracle} {g : Grid} {na : List Coord} {coo : Coord}
    (h : ¬filteredFree g coo = []) (hg : o.grow coo = true) :
    processCell o (g, na) coo =
      (growGrid o g coo, na ++ [nbr coo (chosenIdx o g coo), coo]) := by
  simp [processCell, growGrid, chosenIdx, h, hg]

theorem processCell_nogrow {o : Oracle} {g : Grid} {na : List Coord} {coo : Coord}
    (h : ¬filteredFree g coo = []) (hg : o.grow coo = false) :
    processCell o (g, na) coo = (g, na ++ [coo]) := by
  simp [processCell, h, hg]

theorem processCell_fst_dead {o : Oracle} {g : Grid} {na : List Coord} {coo : Coord}
    (h : filteredFree g coo = []) :
    (processCell o (g, na) coo).1 = update g coo { g coo with active := false } := by
  rw [processCell_dead h]

theorem processCell_snd_dead {o : Oracle} {g : Grid} {na : List Coord} {coo : Coord}
    (h : filteredFree g coo = []) :
    (processCell o (g, na) coo).2 = na := by
  rw [processCell_dead h]

theorem processCell_fst_grow {o : Oracle} {g : Grid} {na : List Coord} {coo : Coord}
    (h : ¬filteredFree g coo = []) (hg : o.grow coo = true) :
    (processCell o (g, na) coo).1 = growGrid o g coo := by
  rw [processCell_grow h hg]

theorem processCell_snd_grow {o : Oracle} {g : Grid} {na : List Coord} {coo : Coord}
    (h : ¬filteredFree g coo = []) (hg : o.grow coo = true) :
    (processCell o (g, na) coo).2 = na ++ [nbr coo (chosenIdx o g coo), coo] := by
  rw [processCell_grow h hg]

theorem processCell_fst_nogrow {o : Oracle} {g : Grid} {na : List Coord} {coo : Coord}
    (h : ¬filteredFree g coo = []) (hg : o.grow coo = false) :
    (processCell o (g, na) coo).1 = g := by
  rw [processCell_nogrow h hg]

theorem processCell_snd_nogrow {o : Oracle} {g : Grid} {na : List Coord} {coo : Coord}
    (h : ¬filteredFree g coo = []) (hg : o.grow coo = false) :
    (processCell o (g, na) coo).2 = na ++ [coo] := by
  rw [processCell_nogrow h hg]

theorem chosenIdx_mem {o : Oracle} {g : Grid} {coo : Coord}
    (h : ¬filteredFree g coo = []) : chosenIdx o g coo ∈ filteredFree g coo :=
  getD_mod_mem _ _ h

theorem chosenIdx_lt {o : Oracle} {g : Grid} {coo : Coord}
    (h : ¬filteredFree g coo = []) : chosenIdx o g coo < 4 :=
  filteredFree_lt_four (chosenIdx_mem h)

theorem chosen_tgt_empty {o : Oracle} {g : Grid} {coo : Coord}
    (h : ¬filteredFree g coo = []) :
    (g (nbr coo (chosenIdx o g coo))).empty = true :=
  filteredFree_empty_tgt (chosenIdx_mem h)

theorem chosen_tgt_ne {o : Oracle} {g : Grid} {coo : Coord}
    (h : ¬filteredFree g coo = []) : nbr coo (chosenIdx o g coo) ≠ coo :=
  nbr_ne (chosenIdx_lt h) coo

theorem growGrid_apply_tgt {o : Oracle} {g : Grid} {coo : Coord}
    (h : ¬filteredFree g coo = []) :
    growGrid o g coo (nbr coo (chosenIdx o g coo)) =
      { g (nbr coo (chosenIdx o g coo)) with
          color := (g coo).color, active := true, empty := false,
          bonds := (g (nbr coo (chosenIdx o g coo))).bonds ++ [(chosenIdx o g coo + 2) % 4] } := by
  unfold growGrid
  rw [update_other _ _ _ _ (chosen_tgt_ne h), update_self]

theorem growGrid_apply_coo {o : Oracle} {g : Grid} {coo : Coord}
    (h : ¬filteredFree g coo = []) :
    growGrid o g coo coo =
      { g coo with bonds := (g coo).bonds ++ [chosenIdx o g coo] } := by
  unfold growGrid
  rw [update_self, update_other _ _ _ _ (Ne.symm (chosen_tgt_ne h))]

theorem growGrid_apply_other {o : Oracle} {g : Grid} {coo p : Coord}
    (hp1 : p ≠ coo) (hp2 : p ≠ nbr coo (chosenIdx o g coo)) :
    growGrid o g coo p = g p := by
  unfold growGrid
  rw [update_other _ _ _ _ hp1, update_other _ _ _ _ hp2]

theorem mod4_cycle {k : ℕ} (hk : k < 4) : ((k + 2) % 4 + 2) % 4 = k := by
  interval_cases k <;> rfl

/-! ## Pointwise effect of one processed cell -/

theorem processCell_back {o : Oracle} {g : Grid} {na : List Coord} {coo p : Coord}
    (h : ((processCell o (g, na) coo).1 p).empty = true) :
    (g p).empty = true ∧
      (((processCell o (g, na) coo).1 p).active = true → (g p).active = true) := by
  by_cases hf : filteredFree g coo = []
  · rw [processCell_fst_dead hf] at h ⊢
    by_cases hp : p = coo
    · subst hp
      rw [update_self] at h ⊢
      exact ⟨h, by simp⟩
    · rw [update_other _ _ _ _ hp] at h ⊢
      exact ⟨h, fun ha => ha⟩
  · cases hg : o.grow coo with
    | true =>
        rw [processCell_fst_grow hf hg] at h ⊢
        by_cases hpt : p = nbr coo (chosenIdx o g coo)
        · rw [hpt, growGrid_apply_tgt hf] at h
          simp at h
        · by_cases hpc : p = coo
          · subst hpc
            rw [growGrid_apply_coo hf] at h ⊢
            exact ⟨h, fun ha => ha⟩
          · rw [growGrid_apply_other hpc hpt] at h ⊢
            exact ⟨h, fun ha => ha⟩
    | false =>
        rw [processCell_fst_nogrow hf hg] at h ⊢
        exact ⟨h, fun ha => ha⟩

theorem processCell_empty_mono {o : Oracle} {g : Grid} {na : List Coord} {coo p : Coord}
    (h : (g p).empty = false) :
    ((processCell o (g, na) coo).1 p).empty = false := by
  by_contra hcon
  have hval : ((processCell o (g, na) coo).1 p).empty = true := by
    cases hv : ((processCell o (g, na) coo).1 p).empty
    · exact absurd hv hcon
    · rfl
  exact absurd (processCell_back hval).1 (by rw [h]; simp)

theorem processCell_bonds_mono {o : Oracle} {g : Grid} {na : List Coord} {coo p : Coord}
    {k : ℕ} (h : k ∈ (g p).bonds) :
    k ∈ ((processCell o (g, na) coo).1 p).bonds := by
  by_cases hf : filteredFree g coo = []
  · rw [processCell_fst_dead hf]
    by_cases hp : p = coo
    · subst hp; rw [update_self]; exact h
    · rw [update_other _ _ _ _ hp]; exact h
  · cases hg : o.grow coo with
    | true =>
        rw [processCell_fst_grow hf hg]
        by_cases hpt : p = nbr coo (chosenIdx o g coo)
        · rw [hpt, growGrid_apply_tgt hf]
          rw [hpt] at h
          exact List.mem_append_left _ h
        · by_cases hpc : p = coo
          · subst hpc
            rw [growGrid_apply_coo hf]
            exact List.mem_append_left _ h
          · rw [growGrid_apply_other hpc hpt]; exact h
    | false =>
        rw [processCell_fst_nogrow hf hg]; exact h

theorem processCell_recip {o : Oracle} {g : Grid} {na : List Coord} {coo : Coord}
    (hrec : GBondRecip g) : GBondRecip ((processCell o (g, na) coo).1) := by
  by_cases hf : filteredFree g coo = []
  · rw [processCell_fst_dead hf]
    intro p k hk
    have hbonds : ∀ q : Coord, (update g coo { g coo with active := false } q).bonds
        = (g q).bonds := by
      intro q
      by_cases hq : q = coo
      · subst hq; rw [update_self]
      · rw [update_other _ _ _ _ hq]
    rw [hbonds] at hk
    rw [hbonds]
    exact hrec p k hk
  · cases hg : o.grow coo with
    | false =>
        rw [processCell_fst_nogrow hf hg]
        exact hrec
    | true =>
        rw [processCell_fst_grow hf hg]
        intro p k hk
        have hK4 : chosenIdx o g coo < 4 := chosenIdx_lt hf
        have hsuper : ∀ (q : Coord) (j : ℕ), j ∈ (g q).bonds →
            j ∈ (growGrid o g coo q).bonds := by
          intro q j hj
          by_cases hqt : q = nbr coo (chosenIdx o g coo)
          · rw [hqt, growGrid_apply_tgt hf]
            rw [hqt] at hj
            exact List.mem_append_left _ hj
          · by_cases hqc : q = coo
            · subst hqc
              rw [growGrid_apply_coo hf]
              exact List.mem_append_left _ hj
            · rw [growGrid_apply_other hqc hqt]; exact hj
        by_cases hpt : p = nbr coo (chosenIdx o g coo)
        · subst hpt
          rw [growGrid_apply_tgt hf] at hk
          simp only [List.mem_append, List.mem_singleton] at hk
          rcases hk with hk | hk
          · exact hsuper _ _ (hrec _ k hk)
          · subst hk
            rw [mod4_cycle hK4, nbr_nbr hK4, growGrid_apply_coo hf]
            simp
        · by_cases hpc : p = coo
          · subst hpc
            rw [growGrid_apply_coo hf] at hk
            simp only [List.mem_append, List.mem_singleton] at hk
            rcases hk with hk | hk
            · exact hsuper _ _ (hrec _ k hk)
            · subst hk
              rw [growGrid_apply_tgt hf]
              simp
          · rw [growGrid_apply_other hpc hpt] at hk
            exact hsuper _ _ (hrec _ k hk)

theorem processCell_colorNE {o : Oracle} {g : Grid} {na : List Coord} {coo : Coord}
    (hc : GColorNE g) : GColorNE ((processCell o (g, na) coo).1) := by
  by_cases hf : filteredFree g coo = []
  · rw [processCell_fst_dead hf]
    intro p hp
    by_cases hq : p = coo
    · subst hq
      rw [update_self] at hp ⊢
      exact hc _ hp
    · rw [update_other _ _ _ _ hq] at hp ⊢
      exact hc _ hp
  · cases hg : o.grow coo with
    | false => rw [processCell_fst_nogrow hf hg]; exact hc
    | true =>
        rw [processCell_fst_grow hf hg]
        intro p hp
        by_cases hpt : p = nbr coo (chosenIdx o g coo)
        · rw [hpt, growGrid_apply_tgt hf]
        · by_cases hpc : p = coo
          · subst hpc
            rw [growGrid_apply_coo hf] at hp ⊢
            exact hc _ hp
          · rw [growGrid_apply_other hpc hpt] at hp ⊢
            exact hc _ hp

theorem processCell_color_keep {o : Oracle} {g : Grid} {na : List Coord} {coo p : Coord}
    {c : ℤ} (hc : GColorNE g) (h : (g p).color = some c) :
    ((processCell o (g, na) coo).1 p).color = some c := by
  by_cases hf : filteredFree g coo = []
  · rw [processCell_fst_dead hf]
    by_cases hq : p = coo
    · subst hq; rw [update_self]; exact h
    · rw [update_other _ _ _ _ hq]; exact h
  · cases hg : o.grow coo with
    | false => rw [processCell_fst_nogrow hf hg]; exact h
    | true =>
        rw [processCell_fst_grow hf hg]
        by_cases hpt : p = nbr coo (chosenIdx o g coo)
        · exfalso
          have hemp : (g p).empty = true := by rw [hpt]; exact chosen_tgt_empty hf
          have hne : (g p).empty = false := hc _ (by rw [h]; simp)
          rw [hne] at hemp
          exact absurd hemp (by simp)
        · by_cases hpc : p = coo
          · subst hpc
            rw [growGrid_apply_coo hf]
            exact h
          · rw [growGrid_apply_other hpc hpt]; exact h

/-! ## Fold-level lemmas for `step` -/

theorem stepFold_cons (o : Oracle) (coo : Coord) (rest : List Coord) (g : Grid)
    (na : List Coord) :
    stepFold o (coo :: rest) g na
      = stepFold o rest (processCell o (g, na) coo).1 (processCell o (g, na) coo).2 := rfl

theorem stepFold_nil (o : Oracle) (g : Grid) (na : List Coord) :
    stepFold o [] g na = (g, na) := rfl

theorem stepFold_back {o : Oracle} (L : List Coord) :
    ∀ (g : Grid) (na : List Coord) (p : Coord),
      ((stepFold o L g na).1 p).empty = true →
      (g p).empty = true ∧
        (((stepFold o L g na).1 p).active = true → (g p).active = true) := by
  induction L with
  | nil => exact fun g na p h => ⟨h, fun ha => ha⟩
  | cons coo rest ih =>
      intro g na p h
      rw [stepFold_cons] at h ⊢
      obtain ⟨h1, h2⟩ := ih _ _ p h
      exact ⟨(processCell_back h1).1, fun ha => (processCell_back h1).2 (h2 ha)⟩

theorem stepFold_empty_mono {o : Oracle} (L : List Coord) {g : Grid} {na : List Coord}
    {p : Coord} (h : (g p).empty = false) :
    ((stepFold o L g na).1 p).empty = false := by
  cases hval : ((stepFold o L g na).1 p).empty
  · rfl
  · exact absurd ((stepFold_back L g na p hval).1) (by rw [h]; simp)

theorem stepFold_bonds_mono {o : Oracle} (L : List Coord) :
    ∀ (g : Grid) (na : List Coord) (p : Coord) (k : ℕ), k ∈ (g p).bonds →
      k ∈ ((stepFold o L g na).1 p).bonds := by
  induction L with
  | nil => exact fun g na p k h => h
  | cons coo rest ih =>
      intro g na p k h
      rw [stepFold_cons]
      exact ih _ _ p k (processCell_bonds_mono h)

theorem stepFold_recip {o : Oracle} (L : List Coord) :
    ∀ (g : Grid) (na : List Coord), GBondRecip g → GBondRecip ((stepFold o L g na).1) := by
  induction L with
  | nil => exact fun g na h => h
  | cons coo rest ih =>
      intro g na h
      rw [stepFold_cons]
      exact ih _ _ (processCell_recip h)

theorem stepFold_colorNE {o : Oracle} (L : List Coord) :
    ∀ (g : Grid) (na : List Coord), GColorNE g → GColorNE ((stepFold o L g na).1) := by
  induction L with
  | nil => exact fun g na h => h
  | cons coo rest ih =>
      intro g na h
      rw [stepFold_cons]
      exact ih _ _ (processCell_colorNE h)

theorem stepFold_color_keep {o : Oracle} (L : List Coord) :
    ∀ (g : Grid) (na : List Coord) (p : Coord) (c : ℤ), GColorNE g →
      (g p).color = some c → ((stepFold o L g na).1 p).color = some c := by
  induction L with
  | nil => exact fun g na p c _ h => h
  | cons coo rest ih =>
      intro g na p c hc h
      rw [stepFold_cons]
      exact ih _ _ p c (processCell_colorNE hc) (processCell_color_keep hc h)

/-! ## `step`-level lemmas -/

theorem step_grid (o : Oracle) (s : Jigsaw) :
    (step o s).grid = (stepFold o (o.shuffle s.active_cells) s.grid []).1 := rfl

theorem step_active (o : Oracle) (s : Jigsaw) :
    (step o s).active_cells = (stepFold o (o.shuffle s.active_cells) s.grid []).2 := rfl

theorem step_res (o : Oracle) (s : Jigsaw) : (step o s).res = s.res := rfl

theorem step_num_pieces (o : Oracle) (s : Jigsaw) : (step o s).num_pieces = s.num_pieces := rfl

theorem step_back {o : Oracle} {s : Jigsaw} {p : Coord}
    (h : ((step o s).grid p).empty = true) :
    (s.grid p).empty = true ∧
      (((step o s).grid p).active = true → (s.grid p).active = true) := by
  rw [step_grid] at h ⊢
  exact stepFold_back _ _ _ _ h

theorem step_empty_mono {o : Oracle} {s : Jigsaw} {p : Coord}
    (h : (s.grid p).empty = false) : ((step o s).grid p).empty = false := by
  rw [step_grid]
  exact stepFold_empty_mono _ h

theorem step_recip {o : Oracle} {s : Jigsaw} (h : BondRecip s) : BondRecip (step o s) := by
  have : GBondRecip (step o s).grid := by
    rw [step_grid]
    exact stepFold_recip _ _ _ h
  exact this

theorem step_colorNE {o : Oracle} {s : Jigsaw} (h : GColorNE s.grid) :
    GColorNE (step o s).grid := by
  rw [step_grid]
  exact stepFold_colorNE _ _ _ h

theorem step_color_keep {o : Oracle} {s : Jigsaw} {p : Coord} {c : ℤ}
    (hc : GColorNE s.grid) (h : (s.grid p).color = some c) :
    ((step o s).grid p).color = some c := by
  rw [step_grid]
  exact stepFold_color_keep _ _ _ _ _ hc h

/-! ## Generic relation lifting through the loops -/

theorem runSteps_cons (o : Oracle) (os : List Oracle) (s : Jigsaw) :
    runSteps (o :: os) s =
      if (step o s).active_cells = [] then step o s else runSteps os (step o s) := rfl

theorem runSteps_rel {R : Jigsaw → Jigsaw → Prop} (hrefl : ∀ s, R s s)
    (htrans : ∀ {a b c : Jigsaw}, R a b → R b c → R a c)
    (hstep : ∀ (o : Oracle) (s : Jigsaw), R s (step o s)) :
    ∀ (os : List Oracle) (s : Jigsaw), R s (runSteps os s) := by
  intro os
  induction os with
  | nil => exact hrefl
  | cons o rest ih =>
      intro s
      rw [runSteps_cons]
      split_ifs with h
      · exact hstep o s
      · exact htrans (hstep o s) (ih (step o s))

theorem foldl_rel {α : Type} {f : Jigsaw → α → Jigsaw} {R : Jigsaw → Jigsaw → Prop}
    (hrefl : ∀ s, R s s) (htrans : ∀ {a b c : Jigsaw}, R a b → R b c → R a c)
    (hf : ∀ (s : Jigsaw) (x : α), R s (f s x)) :
    ∀ (L : List α) (s : Jigsaw), R s (L.foldl f s) := by
  intro L
  induction L with
  | nil => exact hrefl
  | cons x rest ih => exact fun s => htrans (hf s x) (ih (f s x))

theorem completeCell_eq (co : List Oracle) (s : Jigsaw) (p : Coord) :
    completeCell co s p =
      if ((s.grid p).empty && (s.grid p).active) = true then
        runSteps ((co.take 1000).map forceGrow) (fillClaim s p)
      else s := rfl

theorem completeCell_rel {R : Jigsaw → Jigsaw → Prop} (hrefl : ∀ s, R s s)
    (htrans : ∀ {a b c : Jigsaw}, R a b → R b c → R a c)
    (hstep : ∀ (o : Oracle) (s : Jigsaw), R s (step o s))
    (hclaim : ∀ (s : Jigsaw) (p : Coord), (s.grid p).empty = true → R s (fillClaim s p))
    (co : List Oracle) (s : Jigsaw) (p : Coord) : R s (completeCell co s p) := by
  rw [completeCell_eq]
  split_ifs with h
  · rw [Bool.and_eq_true] at h
    exact htrans (hclaim s p h.1) (runSteps_rel hrefl @htrans hstep _ _)
  · exact hrefl s

theorem complete_rel {R : Jigsaw → Jigsaw → Prop} (hrefl : ∀ s, R s s)
    (htrans : ∀ {a b c : Jigsaw}, R a b → R b c → R a c)
    (hstep : ∀ (o : Oracle) (s : Jigsaw), R s (step o s))
    (hclaim : ∀ (s : Jigsaw) (p : Coord), (s.grid p).empty = true → R s (fillClaim s p))
    (co : Coord → List Oracle) (s : Jigsaw) : R s (complete co s) :=
  foldl_rel hrefl @htrans
    (fun s p => completeCell_rel hrefl @htrans hstep hclaim (co p) s p) _ s

theorem trySeed_cons (idx : Coord) (rest : List Coord) (md : ℚ) (c : ℤ) (s : Jigsaw) :
    trySeed (idx :: rest) md c s =
      if tooClose s.active_cells idx md = true then trySeed rest md c s
      else if ((s.grid idx).empty && (s.grid idx).active) = true then seedClaim s idx c
      else trySeed rest md c s := rfl

theorem trySeed_rel {R : Jigsaw → Jigsaw → Prop} (hrefl : ∀ s, R s s)
    (hclaim : ∀ (s : Jigsaw) (idx : Coord) (c : ℤ), (s.grid idx).empty = true →
      R s (seedClaim s idx c)) :
    ∀ (samples : List Coord) (md : ℚ) (c : ℤ) (s : Jigsaw), R s (trySeed samples md c s) := by
  intro samples
  induction samples with
  | nil => exact fun md c s => hrefl s
  | cons idx rest ih =>
      intro md c s
      rw [trySeed_cons]
      split_ifs with h1 h2
      · exact ih md c s
      · rw [Bool.and_eq_true] at h2
        exact hclaim s idx c h2.1
      · exact ih md c s

theorem initiatePieces_eq (sample : ℤ → ℕ → ℕ × ℕ) (md : ℚ) (n : ℕ) (s : Jigsaw) :
    initiatePieces sample md n s =
      (pieceIds n).foldl (fun st c => trySeed (mkSamples st.res (sample c)) md c st)
        { s with num_pieces := n } := rfl

theorem initiatePieces_rel {R : Jigsaw → Jigsaw → Prop} (hrefl : ∀ s, R s s)
    (htrans : ∀ {a b c : Jigsaw}, R a b → R b c → R a c)
    (hnum : ∀ (s : Jigsaw) (n : ℕ), R s { s with num_pieces := n })
    (hclaim : ∀ (s : Jigsaw) (idx : Coord) (c : ℤ), (s.grid idx).empty = true →
      R s (seedClaim s idx c))
    (sample : ℤ → ℕ → ℕ × ℕ) (md : ℚ) (n : ℕ) (s : Jigsaw) :
    R s (initiatePieces sample md n s) := by
  rw [initiatePieces_eq]
  exact htrans (hnum s n)
    (foldl_rel hrefl @htrans
      (fun st c => trySeed_rel hrefl hclaim _ md c st) _ _)

/-! ## The shape-preserving fields: `res` and `num_pieces` -/

theorem next_res {s t : Jigsaw} (h : Next s t) : t.res = s.res := by
  cases h with
  | step o ho s => rfl
  | seed sample md n s =>
      exact initiatePieces_rel (R := fun a b => b.res = a.res) (fun _ => rfl)
        (fun hab hbc => hbc.trans hab) (fun _ _ => rfl) (fun _ _ _ _ => rfl) sample md n s
  | complete co hco s =>
      exact complete_rel (R := fun a b => b.res = a.res) (fun _ => rfl)
        (fun hab hbc => hbc.trans hab) (fun _ _ => rfl) (fun _ _ _ => rfl) co s

/-! ## Bond reciprocity: claim C1 machinery -/

theorem seedClaim_bonds (s : Jigsaw) (idx : Coord) (c : ℤ) (p : Coord) :
    ((seedClaim s idx c).grid p).bonds = (s.grid p).bonds := by
  unfold seedClaim
  by_cases hp : p = idx
  · subst hp; simp [update_self]
  · simp [update_other _ _ _ _ hp]

theorem fillClaim_bonds (s : Jigsaw) (q p : Coord) :
    ((fillClaim s q).grid p).bonds = (s.grid p).bonds := by
  unfold fillClaim
  by_cases hp : p = q
  · subst hp; simp [update_self]
  · simp [update_other _ _ _ _ hp]

theorem recip_of_bonds_eq {s t : Jigsaw}
    (h : ∀ p, (t.grid p).bonds = (s.grid p).bonds) (hs : BondRecip s) : BondRecip t := by
  intro p k hk
  rw [h] at hk
  rw [h]
  exact hs p k hk

theorem next_recip {s t : Jigsaw} (h : Next s t) (hs : BondRecip s) : BondRecip t := by
  cases h with
  | step o ho s => exact step_recip hs
  | seed sample md n s =>
      refine initiatePieces_rel
        (R := fun a b => BondRecip a → BondRecip b)
        (fun _ h => h) (fun hab hbc h => hbc (hab h)) ?_ ?_ sample md n s hs
      · intro s n h
        exact recip_of_bonds_eq (fun p => rfl) h
      · intro s idx c _ h
        exact recip_of_bonds_eq (seedClaim_bonds s idx c) h
  | complete co hco s =>
      refine complete_rel
        (R := fun a b => BondRecip a → BondRecip b)
        (fun _ h => h) (fun hab hbc h => hbc (hab h))
        (fun o s h => step_recip h) ?_ co s hs
      intro s p _ h
      exact recip_of_bonds_eq (fillClaim_bonds s p) h

theorem mkJigsaw_recip (res : ℕ) (circ : Bool) : BondRecip (mkJigsaw res circ) := by
  intro p k hk
  rw [mkJigsaw_bonds] at hk
  exact absurd hk (List.not_mem_nil k)

theorem reach_recip {s : Jigsaw} (h : Reach s) : BondRecip s := by
  induction h with
  | init res circ => exact mkJigsaw_recip res circ
  | next _ hnext ih => exact next_recip hnext ih

/-! ## Well-formedness of reachable states -/

theorem interior_of_not_ring {R : ℕ} {p : Coord} (hin : inGrid R p) (hring : ¬onRing R p) :
    interior R p := by
  obtain ⟨h1, h2, h3, h4⟩ := hin
  unfold onRing at hring
  push_neg at hring
  obtain ⟨g1, g2, g3, g4⟩ := hring
  exact ⟨by omega, by omega, by omega, by omega⟩

theorem circCond_ring {R : ℕ} (hR : 2 ≤ R) {p : Coord} (hring : onRing R p) :
    circCond R p = true := by
  unfold circCond
  simp only [Bool.or_eq_true, decide_eq_true_eq]
  by_cases hm : (R : ℚ) / 2 - 1.1 < 0
  · left; exact hm
  · right
    push_neg at hm
    have hR2 : (2 : ℚ) ≤ (R : ℚ) := by exact_mod_cast hR
    rcases hring with h | h | h | h
    · rw [h]
      push_cast
      nlinarith [sq_nonneg ((p.2 : ℚ) - (R : ℚ) / 2 + 1 / 2)]
    · rw [h]
      push_cast
      nlinarith [sq_nonneg ((p.2 : ℚ) - (R : ℚ) / 2 + 1 / 2)]
    · rw [h]
      push_cast
      nlinarith [sq_nonneg ((p.1 : ℚ) - (R : ℚ) / 2 + 1 / 2)]
    · rw [h]
      push_cast
      nlinarith [sq_nonneg ((p.1 : ℚ) - (R : ℚ) / 2 + 1 / 2)]

theorem mkJigsaw_WF (res : ℕ) (circ : Bool) : WF (mkJigsaw res circ) := by
  refine ⟨?_, ?_, ?_, ?_, ?_, ?_⟩
  · rw [mkJigsaw_res]; omega
  · intro p hin hring
    rw [mkJigsaw_res] at hin hring
    cases circ
    · rw [mkJigsaw_rect_grid]
      have hmem : p ∈ borderCoords (res + 2) := by
        rw [mem_borderCoords]
        obtain ⟨h1, h2, h3, h4⟩ := hin
        rcases hring with h | h | h | h
        · right; exact ⟨Or.inl h, h3, h4⟩
        · right; exact ⟨Or.inr h, h3, h4⟩
        · left; exact ⟨⟨h1, h2⟩, Or.inl h⟩
        · left; exact ⟨⟨h1, h2⟩, Or.inr h⟩
      rw [if_pos hmem]; rfl
    · rw [mkJigsaw_circ_grid]
      rw [if_pos ⟨mem_allCoords.mpr hin, circCond_ring (by omega) hring⟩]
      rfl
  · rw [mkJigsaw_active]; intro p hp; exact absurd hp (List.not_mem_nil p)
  · rw [mkJigsaw_active]; intro p hp; exact absurd hp (List.not_mem_nil p)
  · intro p hp
    rw [mkJigsaw_empty_iff_active] at hp; exact hp
  · intro p hp
    rw [mkJigsaw_color] at hp
    exact absurd rfl hp

theorem processCell_emptyActive {o : Oracle} {g : Grid} {na : List Coord} {coo : Coord}
    (hcoo : (g coo).empty = false)
    (hEA : ∀ p, (g p).empty = true → (g p).active = true) (p : Coord) :
    ((processCell o (g, na) coo).1 p).empty = true →
      ((processCell o (g, na) coo).1 p).active = true := by
  by_cases hf : filteredFree g coo = []
  · rw [processCell_fst_dead hf]
    by_cases hp : p = coo
    · subst hp
      rw [update_self]
      intro h
      simp only [] at h
      rw [hcoo] at h
      exact absurd h (by simp)
    · rw [update_other _ _ _ _ hp]
      exact hEA p
  · cases hg : o.grow coo with
    | false => rw [processCell_fst_nogrow hf hg]; exact hEA p
    | true =>
        rw [processCell_fst_grow hf hg]
        by_cases hpt : p = nbr coo (chosenIdx o g coo)
        · rw [hpt, growGrid_apply_tgt hf]
          intro h
          simp at h
        · by_cases hpc : p = coo
          · subst hpc
            rw [growGrid_apply_coo hf]
            intro h
            simp only [] at h ⊢
            exact hEA _ h
          · rw [growGrid_apply_other hpc hpt]
            exact hEA p

theorem stepFold_WFcore {o : Oracle} {R : ℕ} :
    ∀ (L : List Coord) (g : Grid) (na : List Coord),
    (∀ p, inGrid R p → onRing R p → (g p).empty = false) →
    (∀ p, (g p).empty = true → (g p).active = true) →
    (∀ p ∈ L, interior R p ∧ (g p).empty = false) →
    (∀ p ∈ na, interior R p ∧ ((g p).empty = false)) →
    (∀ p, inGrid R p → onRing R p → ((stepFold o L g na).1 p).empty = false) ∧
    (∀ p, ((stepFold o L g na).1 p).empty = true →
      ((stepFold o L g na).1 p).active = true) ∧
    (∀ p ∈ (stepFold o L g na).2, interior R p ∧
      ((stepFold o L g na).1 p).empty = false) := by
  intro L
  induction L with
  | nil => exact fun g na hring hEA _ hna => ⟨hring, hEA, hna⟩
  | cons coo rest ih =>
      intro g na hring hEA hL hna
      obtain ⟨hcooInt, hcooNE⟩ := hL coo (List.mem_cons_self coo rest)
      rw [stepFold_cons]
      refine ih _ _ ?_ ?_ ?_ ?_
      · exact fun p hin hr => processCell_empty_mono (hring p hin hr)
      · exact processCell_emptyActive hcooNE hEA
      · intro p hp
        obtain ⟨hint, hne⟩ := hL p (List.mem_cons_of_mem coo hp)
        exact ⟨hint, processCell_empty_mono hne⟩
      · intro p hp
        by_cases hf : filteredFree g coo = []
        · rw [processCell_snd_dead hf] at hp
          obtain ⟨hint, hne⟩ := hna p hp
          exact ⟨hint, processCell_empty_mono hne⟩
        · cases hg : o.grow coo with
          | false =>
              rw [processCell_snd_nogrow hf hg] at hp
              rw [List.mem_append, List.mem_singleton] at hp
              rcases hp with hp | hp
              · obtain ⟨hint, hne⟩ := hna p hp
                exact ⟨hint, processCell_empty_mono hne⟩
              · subst hp
                exact ⟨hcooInt, processCell_empty_mono hcooNE⟩
          | true =>
              rw [processCell_snd_grow hf hg] at hp
              rw [List.mem_append] at hp
              rcases hp with hp | hp
              · obtain ⟨hint, hne⟩ := hna p hp
                exact ⟨hint, processCell_empty_mono hne⟩
              · have htgtInt : interior R (nbr coo (chosenIdx o g coo)) := by
                  refine interior_of_not_ring (inGrid_nbr hcooInt (chosenIdx_lt hf)) ?_
                  intro hr
                  have hempt : (g (nbr coo (chosenIdx o g coo))).empty = true :=
                    chosen_tgt_empty hf
                  have := hring _ (inGrid_nbr hcooInt (chosenIdx_lt hf)) hr
                  rw [this] at hempt
                  exact absurd hempt (by simp)
                have htgtNE :
                    ((processCell o (g, na) coo).1 (nbr coo (chosenIdx o g coo))).empty
                      = false := by
                  rw [processCell_fst_grow hf hg, growGrid_apply_tgt hf]
                rw [List.mem_cons, List.mem_singleton] at hp
                rcases hp with hp | hp
                · subst hp
                  exact ⟨htgtInt, htgtNE⟩
                · subst hp
                  exact ⟨hcooInt, processCell_empty_mono hcooNE⟩

theorem step_WF {o : Oracle} {s : Jigsaw} (ho : OracleOK o) (h : WF s) : WF (step o s) := by
  have hperm := ho s.active_cells
  have hmem : ∀ p ∈ o.shuffle s.active_cells, interior s.res p ∧ (s.grid p).empty = false := by
    intro p hp
    have hp' : p ∈ s.active_cells := hperm.mem_iff.mp hp
    exact ⟨h.activeInt p hp', h.activeNE p hp'⟩
  obtain ⟨c1, c2, c3⟩ := stepFold_WFcore (o := o) (R := s.res)
    (o.shuffle s.active_cells) s.grid [] h.ringW h.emptyActive hmem
    (fun p hp => absurd hp (List.not_mem_nil p))
  refine ⟨?_, ?_, ?_, ?_, ?_, ?_⟩
  · rw [step_res]; exact h.hres
  · intro p hin hr
    rw [step_res] at hin hr
    rw [step_grid]
    exact c1 p hin hr
  · intro p hp
    rw [step_res]
    rw [step_active] at hp
    exact (c3 p hp).1
  · intro p hp
    rw [step_active] at hp
    rw [step_grid]
    exact (c3 p hp).2
  · intro p
    rw [step_grid]
    exact c2 p
  · intro p
    rw [step_grid]
    exact fun hc => (step_colorNE (o := o) (s := s) h.colorNE p hc)

theorem seedClaim_WF {s : Jigsaw} {idx : Coord} {c : ℤ} (h : WF s)
    (hin : inGrid s.res idx) (hemp : (s.grid idx).empty = true) :
    WF (seedClaim s idx c) := by
  have hInt : interior s.res idx := by
    refine interior_of_not_ring hin ?_
    intro hr
    have := h.ringW idx hin hr
    rw [this] at hemp
    exact absurd hemp (by simp)
  have hgrid : ∀ p, ((seedClaim s idx c).grid p) =
      if p = idx then { s.grid idx with color := some c, empty := false } else s.grid p := by
    intro p
    by_cases hp : p = idx
    · subst hp; simp [seedClaim, update_self]
    · simp [seedClaim, update_other _ _ _ _ hp, hp]
  refine ⟨h.hres, ?_, ?_, ?_, ?_, ?_⟩
  · intro p hin' hr
    rw [hgrid]
    split_ifs with hp
    · rfl
    · exact h.ringW p hin' hr
  · intro p hp
    rw [show (seedClaim s idx c).active_cells = s.active_cells ++ [idx] from rfl,
      List.mem_append, List.mem_singleton] at hp
    rcases hp with hp | hp
    · exact h.activeInt p hp
    · subst hp; exact hInt
  · intro p hp
    rw [show (seedClaim s idx c).active_cells = s.active_cells ++ [idx] from rfl,
      List.mem_append, List.mem_singleton] at hp
    rw [hgrid]
    split_ifs with hpidx
    · rfl
    · rcases hp with hp | hp
      · exact h.activeNE p hp
      · exact absurd hp hpidx
  · intro p
    rw [hgrid]
    split_ifs with hp
    · intro hfalse
      exact absurd hfalse (by simp)
    · exact h.emptyActive p
  · intro p
    rw [hgrid]
    split_ifs with hp
    · intro _; rfl
    · exact h.colorNE p

theorem mem_mkSamples {R : ℕ} {f : ℕ → ℕ × ℕ} {idx : Coord} (hR : 0 < R)
    (h : idx ∈ mkSamples R f) : inGrid R idx := by
  unfold mkSamples at h
  rw [List.mem_map] at h
  obtain ⟨t, _, rfl⟩ := h
  have h1 : (f t).1 % R < R := Nat.mod_lt _ hR
  have h2 : (f t).2 % R < R := Nat.mod_lt _ hR
  unfold inGrid
  refine ⟨?_, ?_, ?_, ?_⟩ <;> dsimp only <;> omega

theorem trySeed_WF {md : ℚ} {c : ℤ} :
    ∀ (samples : List Coord) (s : Jigsaw), WF s →
    (∀ idx ∈ samples, inGrid s.res idx) → WF (trySeed samples md c s) := by
  intro samples
  induction samples with
  | nil => exact fun s h _ => h
  | cons idx rest ih =>
      intro s h hin
      rw [trySeed_cons]
      split_ifs with h1 h2
      · exact ih s h (fun q hq => hin q (List.mem_cons_of_mem idx hq))
      · rw [Bool.and_eq_true] at h2
        exact seedClaim_WF h (hin idx (List.mem_cons_self idx rest)) h2.1
      · exact ih s h (fun q hq => hin q (List.mem_cons_of_mem idx hq))

theorem foldl_pres {α : Type} {f : Jigsaw → α → Jigsaw} {P : Jigsaw → Prop}
    (hf : ∀ (s : Jigsaw) (x : α), P s → P (f s x)) :
    ∀ (L : List α) (s : Jigsaw), P s → P (L.foldl f s) := by
  intro L
  induction L with
  | nil => exact fun s h => h
  | cons x rest ih => exact fun s h => ih (f s x) (hf s x h)

theorem numSet_WF {s : Jigsaw} (n : ℕ) (h : WF s) : WF { s with num_pieces := n } :=
  ⟨h.hres, h.ringW, h.activeInt, h.activeNE, h.emptyActive, h.colorNE⟩

theorem trySeed_res (samples : List Coord) (md : ℚ) (c : ℤ) (s : Jigsaw) :
    (trySeed samples md c s).res = s.res := by
  induction samples generalizing s with
  | nil => rfl
  | cons idx rest ih =>
      rw [trySeed_cons]
      split_ifs with h1 h2
      · exact ih s
      · rfl
      · exact ih s

theorem initiatePieces_WF {sample : ℤ → ℕ → ℕ × ℕ} {md : ℚ} {n : ℕ} {s : Jigsaw}
    (h : WF s) : WF (initiatePieces sample md n s) := by
  rw [initiatePieces_eq]
  refine foldl_pres (P := WF) ?_ (pieceIds n) _ (numSet_WF n h)
  intro st c hst
  refine trySeed_WF _ st hst ?_
  intro idx hidx
  exact mem_mkSamples (by have := hst.hres; omega) hidx

theorem runSteps_WF : ∀ (os : List Oracle) (s : Jigsaw), (∀ o ∈ os, OracleOK o) →
    WF s → WF (runSteps os s) := by
  intro os
  induction os with
  | nil => exact fun s _ h => h
  | cons o rest ih =>
      intro s hos h
      rw [runSteps_cons]
      split_ifs with hstop
      · exact step_WF (hos o (List.mem_cons_self o rest)) h
      · exact ih _ (fun o' ho' => hos o' (List.mem_cons_of_mem o ho'))
          (step_WF (hos o (List.mem_cons_self o rest)) h)

theorem forceGrow_OK {o : Oracle} (h : OracleOK o) : OracleOK (forceGrow o) := h

theorem fillClaim_WF {s : Jigsaw} {p : Coord} (h : WF s)
    (hin : inGrid s.res p) (hemp : (s.grid p).empty = true) : WF (fillClaim s p) := by
  have hInt : interior s.res p := by
    refine interior_of_not_ring hin ?_
    intro hr
    have := h.ringW p hin hr
    rw [this] at hemp
    exact absurd hemp (by simp)
  have hgrid : ∀ q, ((fillClaim s p).grid q) =
      if q = p then { s.grid p with empty := false, color := some fillerColor }
      else s.grid q := by
    intro q
    by_cases hq : q = p
    · subst hq; simp [fillClaim, update_self]
    · simp [fillClaim, update_other _ _ _ _ hq, hq]
  refine ⟨h.hres, ?_, ?_, ?_, ?_, ?_⟩
  · intro q hin' hr
    rw [hgrid]
    split_ifs with hq
    · rfl
    · exact h.ringW q hin' hr
  · intro q hq
    rw [show (fillClaim s p).active_cells = s.active_cells ++ [p] from rfl,
      List.mem_append, List.mem_singleton] at hq
    rcases hq with hq | hq
    · exact h.activeInt q hq
    · subst hq; exact hInt
  · intro q hq
    rw [show (fillClaim s p).active_cells = s.active_cells ++ [p] from rfl,
      List.mem_append, List.mem_singleton] at hq
    rw [hgrid]
    split_ifs with hqp
    · rfl
    · rcases hq with hq | hq
      · exact h.activeNE q hq
      · exact absurd hq hqp
  · intro q
    rw [hgrid]
    split_ifs with hq
    · intro hfalse
      exact absurd hfalse (by simp)
    · exact h.emptyActive q
  · intro q
    rw [hgrid]
    split_ifs with hq
    · intro _; rfl
    · exact h.colorNE q

theorem completeCell_WF {co : List Oracle} {s : Jigsaw} {p : Coord}
    (hco : ∀ o ∈ co, OracleOK o) (h : WF s) (hin : inGrid s.res p) :
    WF (completeCell co s p) := by
  rw [completeCell_eq]
  split_ifs with hcond
  · rw [Bool.and_eq_true] at hcond
    refine runSteps_WF _ _ ?_ (fillClaim_WF h hin hcond.1)
    intro o' ho'
    rw [List.mem_map] at ho'
    obtain ⟨o, ho, rfl⟩ := ho'
    exact forceGrow_OK (hco o (List.mem_of_mem_take ho))
  · exact h

theorem completeCell_res (co : List Oracle) (s : Jigsaw) (p : Coord) :
    (completeCell co s p).res = s.res := by
  refine completeCell_rel (R := fun a b => b.res = a.res) (fun _ => rfl)
    (fun hab hbc => hbc.trans hab) (fun _ _ => rfl) (fun _ _ _ => rfl) co s p

theorem complete_WF {co : Coord → List Oracle} {s : Jigsaw}
    (hco : ∀ p, ∀ o ∈ co p, OracleOK o) (h : WF s) : WF (complete co s) := by
  unfold complete
  have hgen : ∀ (L : List Coord) (t : Jigsaw), WF t → t.res = s.res →
      (∀ p ∈ L, inGrid s.res p) →
      WF (L.foldl (fun st p => completeCell (co p) st p) t) := by
    intro L
    induction L with
    | nil => exact fun t ht _ _ => ht
    | cons p rest ih =>
        intro t ht hres hin
        rw [List.foldl_cons]
        refine ih _ (completeCell_WF (hco p) ht ?_) ?_ ?_
        · rw [hres]; exact hin p (List.mem_cons_self p rest)
        · rw [completeCell_res, hres]
        · exact fun q hq => hin q (List.mem_cons_of_mem p hq)
  exact hgen (allCoords s.res) s h rfl (fun p hp => mem_allCoords.mp hp)

theorem next_WF {s t : Jigsaw} (h : Next s t) (hs : WF s) : WF t := by
  cases h with
  | step o ho s => exact step_WF ho hs
  | seed sample md n s => exact initiatePieces_WF hs
  | complete co hco s => exact complete_WF hco hs

theorem reach_WF {s : Jigsaw} (h : Reach s) : WF s := by
  induction h with
  | init res circ => exact mkJigsaw_WF res circ
  | next _ hnext ih => exact next_WF hnext ih

/-! ## Color monotonicity along operations -/

theorem colorMono_refl (s : Jigsaw) : ColorMono s s :=
  fun h => ⟨h, fun _ _ hc => hc⟩

theorem colorMono_trans {a b c : Jigsaw} (hab : ColorMono a b) (hbc : ColorMono b c) :
    ColorMono a c := by
  intro h
  obtain ⟨h1, h2⟩ := hab h
  obtain ⟨h3, h4⟩ := hbc h1
  exact ⟨h3, fun p cc hc => h4 p cc (h2 p cc hc)⟩

theorem colorMono_step (o : Oracle) (s : Jigsaw) : ColorMono s (step o s) :=
  fun h => ⟨step_colorNE h, fun _ _ hc => step_color_keep h hc⟩

theorem colorMono_seedClaim (s : Jigsaw) (idx : Coord) (c : ℤ)
    (hemp : (s.grid idx).empty = true) : ColorMono s (seedClaim s idx c) := by
  intro h
  have hnone : (s.grid idx).color = none := by
    by_contra hcon
    have := h idx hcon
    rw [this] at hemp
    exact absurd hemp (by simp)
  have hgrid : ∀ p, ((seedClaim s idx c).grid p) =
      if p = idx then { s.grid idx with color := some c, empty := false } else s.grid p := by
    intro p
    by_cases hp : p = idx
    · subst hp; simp [seedClaim, update_self]
    · simp [seedClaim, update_other _ _ _ _ hp, hp]
  constructor
  · intro p
    rw [hgrid]
    split_ifs with hp
    · intro _; rfl
    · exact h p
  · intro p cc hc
    rw [hgrid]
    split_ifs with hp
    · subst hp
      rw [hnone] at hc
      exact absurd hc (by simp)
    · exact hc

theorem colorMono_fillClaim (s : Jigsaw) (p : Coord)
    (hemp : (s.grid p).empty = true) : ColorMono s (fillClaim s p) := by
  intro h
  have hnone : (s.grid p).color = none := by
    by_contra hcon
    have := h p hcon
    rw [this] at hemp
    exact absurd hemp (by simp)
  have hgrid : ∀ q, ((fillClaim s p).grid q) =
      if q = p then { s.grid p with empty := false, color := some fillerColor }
      else s.grid q := by
    intro q
    by_cases hq : q = p
    · subst hq; simp [fillClaim, update_self]
    · simp [fillClaim, update_other _ _ _ _ hq, hq]
  constructor
  · intro q
    rw [hgrid]
    split_ifs with hq
    · intro _; rfl
    · exact h q
  · intro q cc hc
    rw [hgrid]
    split_ifs with hq
    · subst hq
      rw [hnone] at hc
      exact absurd hc (by simp)
    · exact hc

theorem next_colorMono {s t : Jigsaw} (h : Next s t) : ColorMono s t := by
  cases h with
  | step o ho s => exact colorMono_step o s
  | seed sample md n s =>
      exact initiatePieces_rel colorMono_refl (fun hab hbc => colorMono_trans hab hbc)
        (fun s n => colorMono_refl s)
        (fun s idx c hemp => colorMono_seedClaim s idx c hemp) sample md n s
  | complete co hco s =>
      exact complete_rel colorMono_refl (fun hab hbc => colorMono_trans hab hbc)
        (fun o s => colorMono_step o s)
        (fun s p hemp => colorMono_fillClaim s p hemp) co s

theorem reach_rtg {s t : Jigsaw} (hs : Reach s) (h : Relation.ReflTransGen Next s t) :
    Reach t := by
  induction h with
  | refl => exact hs
  | tail _ hbc ih => exact ih.next hbc

theorem idOracle_OK (g : Bool) : OracleOK (idOracle g) := fun l => List.Perm.refl l

theorem reach_jig3 : Reach jig3 := Reach.init 3 false

theorem reach_sSeeded : Reach sSeeded :=
  reach_jig3.next (Next.seed seedAt22 0 1 jig3)

/-! ## Claim C1 -/

/-- C1 — Bond reciprocity invariant: in every reachable state of the
simulation (after construction, after seeding, after every generation step
and after completion), for every cell `A` and every bond index `k` recorded
in `A`'s bonds, the neighbor of `A` at direction `k` carries a bond at index
`(k + 2) % 4` pointing back to `A`.  The inductive preservation proof for the
growth step (`processCell_recip`) shows the two bonds of each pair are
recorded together in the same growth event. -/
theorem c1_bond_reciprocity (s : Jigsaw) (h : Reach s) : BondRecip s :=
  reach_recip h

theorem c1_bond_reciprocity_witness : BondRecip (step (idOracle true) sSeeded) :=
  c1_bond_reciprocity _
    (reach_sSeeded.next (Next.step (idOracle true) (idOracle_OK true) sSeeded))

/-! ## Claim C2 -/

/-- C2 — Bond-blocking rule of the growth step.  `filteredFree` is exactly
the free-neighbor set each active cell is processed with in `step`
(`processCell` deactivates the cell precisely when it is empty — third
conjunct).  First conjunct: an index `i` survives iff the diagonal neighbor
`i` is currently empty and `i` is not removed by one of the four rules —
upper neighbor bond `3` removes `0`, upper bond `2` removes `1`, lower bond
`1` removes `2`, lower bond `0` removes `3` — and no other bond removes
anything.  Second conjunct: the filter inspects only the vertical-axis
neighbors `coords + (0, 1)` and `coords + (0, -1)` (and the emptiness of the
four diagonal targets): any grid agreeing there yields the same free set. -/
theorem c2_bond_blocking (g : Grid) (coo : Coord) :
    (∀ i : ℕ, i ∈ filteredFree g coo ↔
      (i < 4 ∧ (g (nbr coo i)).empty = true ∧
       ¬(i = 0 ∧ 3 ∈ (g (upC coo)).bonds) ∧
       ¬(i = 1 ∧ 2 ∈ (g (upC coo)).bonds) ∧
       ¬(i = 2 ∧ 1 ∈ (g (lowC coo)).bonds) ∧
       ¬(i = 3 ∧ 0 ∈ (g (lowC coo)).bonds))) ∧
    (∀ g' : Grid,
      (∀ j, j < 4 → (g' (nbr coo j)).empty = (g (nbr coo j)).empty) →
      (g' (upC coo)).bonds = (g (upC coo)).bonds →
      (g' (lowC coo)).bonds = (g (lowC coo)).bonds →
      filteredFree g' coo = filteredFree g coo) ∧
    (filteredFree g coo = [] → ∀ (o : Oracle) (na : List Coord),
      processCell o (g, na) coo = (update g coo { g coo with active := false }, na)) := by
  refine ⟨?_, ?_, ?_⟩
  · intro i
    rw [mem_filteredFree, mem_freeNeighbors]
    tauto
  · intro g' hemp hup hlow
    unfold filteredFree
    rw [hup, hlow]
    have hfree : freeNeighbors g' coo = freeNeighbors g coo := by
      unfold freeNeighbors
      refine List.filter_congr ?_
      intro j hj
      rw [List.mem_range] at hj
      rw [hemp j hj]
    rw [hfree]
  · intro h o na
    exact processCell_dead h

theorem c2_bond_blocking_witness : 0 ∈ filteredFree jig3.grid (2, 2) :=
  ((c2_bond_blocking jig3.grid (2, 2)).1 0).mpr (by decide)

/-! ## Claim C5 -/

/-- C5 — Color immutability: in any reachable state, once a cell's color has
been assigned, no later sequence of operations (seeding, growth steps,
completion) ever changes it. -/
theorem c5_color_immutable (s s' : Jigsaw) (p : Coord) (c : ℤ) (hr : Reach s)
    (hop : Relation.ReflTransGen Next s s') (hc : (s.grid p).color = some c) :
    (s'.grid p).color = some c := by
  induction hop with
  | refl => exact hc
  | tail hab hbc ih =>
      rename_i b b'
      have hb : Reach b := reach_rtg hr hab
      exact ((next_colorMono hbc) (reach_WF hb).colorNE).2 p c ih

set_option maxRecDepth 8000 in
theorem c5_color_immutable_witness :
    ((step (idOracle true) sSeeded).grid (2, 2)).color = some 1 :=
  c5_color_immutable sSeeded _ (2, 2) 1 reach_sSeeded
    (Relation.ReflTransGen.single (Next.step (idOracle true) (idOracle_OK true) sSeeded))
    (by decide)

/-! ## Claim C10 -/

/-- C10 — Implicit invariant: in every reachable state, every cell with
`empty = True` also has `active = True` (no cell is ever simultaneously
unclaimed and inactive), and consequently the `-1` branch of `get_color`
never fires: `get_color` collapses to `0` on empty cells and to the stored
color on claimed cells. -/
theorem c10_empty_implies_active (s : Jigsaw) (h : Reach s) (p : Coord) :
    ((s.grid p).empty = true → (s.grid p).active = true) ∧
    get_color (s.grid p) =
      (if (s.grid p).empty = true then some 0 else (s.grid p).color) := by
  have hWF := reach_WF h
  refine ⟨hWF.emptyActive p, ?_⟩
  unfold get_color
  split_ifs with h1 h2
  · exact absurd (hWF.emptyActive p h1) (by simp [h2])
  · rfl
  · rfl

theorem c10_empty_implies_active_witness :
    get_color (jig3.grid (1, 1)) =
      (if (jig3.grid (1, 1)).empty = true then some 0 else (jig3.grid (1, 1)).color) :=
  (c10_empty_implies_active jig3 reach_jig3 (1, 1)).2

/-! ## Coverage after `complete`: claim C3 machinery -/

theorem backMono_refl (s : Jigsaw) : BackMono s s :=
  fun _ he => ⟨he, fun ha => ha⟩

theorem backMono_trans {a b c : Jigsaw} (hab : BackMono a b) (hbc : BackMono b c) :
    BackMono a c := by
  intro p he
  obtain ⟨he1, ha1⟩ := hbc p he
  obtain ⟨he2, ha2⟩ := hab p he1
  exact ⟨he2, fun ha => ha2 (ha1 ha)⟩

theorem backMono_step (o : Oracle) (s : Jigsaw) : BackMono s (step o s) :=
  fun _ he => step_back he

theorem runSteps_back (os : List Oracle) (s : Jigsaw) : BackMono s (runSteps os s) :=
  runSteps_rel backMono_refl (fun hab hbc => backMono_trans hab hbc) backMono_step os s

theorem fillClaim_back (s : Jigsaw) (q : Coord) : BackMono s (fillClaim s q) := by
  intro p he
  by_cases hp : p = q
  · subst hp
    rw [show (fillClaim s p).grid p
        = { s.grid p with empty := false, color := some fillerColor } from by
      simp [fillClaim, update_self]] at he
    exact absurd he (by simp)
  · rw [show (fillClaim s q).grid p = s.grid p from by
      simp [fillClaim, update_other _ _ _ _ hp]] at he ⊢
    exact ⟨he, fun ha => ha⟩

theorem completeCell_back (co : List Oracle) (s : Jigsaw) (q : Coord) :
    BackMono s (completeCell co s q) :=
  completeCell_rel backMono_refl (fun hab hbc => backMono_trans hab hbc)
    backMono_step (fun s q _ => fillClaim_back s q) co s q

theorem backMono_Q {a b : Jigsaw} (h : BackMono a b) (q : Coord)
    (hq : ¬((a.grid q).empty = true ∧ (a.grid q).active = true)) :
    ¬((b.grid q).empty = true ∧ (b.grid q).active = true) := by
  rintro ⟨he, ha⟩
  obtain ⟨he', hact⟩ := h q he
  exact hq ⟨he', hact ha⟩

theorem completeCell_establish (co : List Oracle) (s : Jigsaw) (p : Coord) :
    ¬(((completeCell co s p).grid p).empty = true ∧
      ((completeCell co s p).grid p).active = true) := by
  rw [completeCell_eq]
  split_ifs with hcond
  · rintro ⟨he, _⟩
    have hb := runSteps_back ((co.take 1000).map forceGrow) (fillClaim s p)
    have hfe := (hb p he).1
    rw [show (fillClaim s p).grid p
        = { s.grid p with empty := false, color := some fillerColor } from by
      simp [fillClaim, update_self]] at hfe
    exact absurd hfe (by simp)
  · rintro ⟨he, ha⟩
    exact hcond (by rw [Bool.and_eq_true]; exact ⟨he, ha⟩)

theorem complete_fold_Q (co : Coord → List Oracle) :
    ∀ (L : List Coord) (t : Jigsaw) (p : Coord),
      (¬((t.grid p).empty = true ∧ (t.grid p).active = true) ∨ p ∈ L) →
      ¬(((L.foldl (fun st q => completeCell (co q) st q) t).grid p).empty = true ∧
        ((L.foldl (fun st q => completeCell (co q) st q) t).grid p).active = true) := by
  intro L
  induction L with
  | nil =>
      intro t p hp
      rcases hp with hp | hp
      · exact hp
      · exact absurd hp (List.not_mem_nil p)
  | cons c rest ih =>
      intro t p hp
      rw [List.foldl_cons]
      by_cases hpc : p = c
      · subst hpc
        exact ih _ p (Or.inl (completeCell_establish (co p) t p))
      · rcases hp with hp | hp
        · exact ih _ p (Or.inl (backMono_Q (completeCell_back (co c) t c) p hp))
        · rcases List.mem_cons.mp hp with hc | hc
          · exact absurd hc hpc
          · exact ih _ p (Or.inr hc)

theorem complete_Q (co : Coord → List Oracle) (s : Jigsaw) (p : Coord)
    (hin : inGrid s.res p) :
    ¬(((complete co s).grid p).empty = true ∧ ((complete co s).grid p).active = true) := by
  unfold complete
  exact complete_fold_Q co (allCoords s.res) s p (Or.inr (mem_allCoords.mpr hin))

/-! ## Claim C3 -/

/-- C3 — Coverage: from any reachable state, after `complete` terminates,
no cell remains simultaneously empty and active; combined with the reachable
invariant that empty cells are active, every grid cell — in particular every
non-walled cell — ends with `empty = False`. -/
theorem c3_coverage (s : Jigsaw) (h : Reach s) (co : Coord → List Oracle)
    (hco : ∀ p, ∀ o ∈ co p, OracleOK o) (p : Coord) (hin : inGrid s.res p) :
    ((complete co s).grid p).empty = false := by
  have hreach : Reach (complete co s) := h.next (Next.complete co hco s)
  have hWF := reach_WF hreach
  have hQ := complete_Q co s p hin
  cases hval : ((complete co s).grid p).empty
  · rfl
  · exact absurd ⟨hval, hWF.emptyActive p hval⟩ hQ

theorem c3_coverage_witness :
    ((complete (fun _ => []) (mkJigsaw 1 false)).grid (1, 1)).empty = false :=
  c3_coverage _ (Reach.init 1 false) (fun _ => [])
    (fun _ o ho => absurd ho (List.not_mem_nil o)) (1, 1) (by decide)

/-! ## The zero-growth step: claim C4 machinery -/

theorem filteredFree_congr {g g' : Grid} (hemp : ∀ p, (g' p).empty = (g p).empty)
    (hbonds : ∀ p, (g' p).bonds = (g p).bonds) (coo : Coord) :
    filteredFree g' coo = filteredFree g coo := by
  unfold filteredFree
  rw [hbonds (upC coo), hbonds (lowC coo)]
  have hfree : freeNeighbors g' coo = freeNeighbors g coo := by
    unfold freeNeighbors
    exact List.filter_congr (fun j _ => by rw [hemp (nbr coo j)])
  rw [hfree]

theorem stepFold_nogrow {o : Oracle} (hg : ∀ c, o.grow c = false) :
    ∀ (L : List Coord) (g : Grid) (na : List Coord),
    (∀ p, ((stepFold o L g na).1 p).empty = (g p).empty ∧
          ((stepFold o L g na).1 p).color = (g p).color ∧
          ((stepFold o L g na).1 p).bonds = (g p).bonds) ∧
    (stepFold o L g na).2 = na ++ L.filter (fun c => !(filteredFree g c).isEmpty) ∧
    (∀ p, ((stepFold o L g na).1 p).active = true → (g p).active = true) ∧
    (∀ c ∈ L, filteredFree g c = [] → ((stepFold o L g na).1 c).active = false) := by
  intro L
  induction L with
  | nil =>
      intro g na
      refine ⟨fun p => ⟨rfl, rfl, rfl⟩, by simp [stepFold_nil], fun p h => h, ?_⟩
      intro c hc
      exact absurd hc (List.not_mem_nil c)
  | cons c0 rest ih =>
      intro g na
      rw [stepFold_cons]
      by_cases hf : filteredFree g c0 = []
      · rw [processCell_fst_dead hf, processCell_snd_dead hf]
        set g1 := update g c0 { g c0 with active := false } with hg1
        have hfields : ∀ p, (g1 p).empty = (g p).empty ∧ (g1 p).color = (g p).color ∧
            (g1 p).bonds = (g p).bonds := by
          intro p
          by_cases hp : p = c0
          · subst hp; rw [hg1, update_self]; exact ⟨rfl, rfl, rfl⟩
          · rw [hg1, update_other _ _ _ _ hp]; exact ⟨rfl, rfl, rfl⟩
        have hff : ∀ c, filteredFree g1 c = filteredFree g c :=
          filteredFree_congr (fun p => (hfields p).1) (fun p => (hfields p).2.2)
        obtain ⟨i1, i2, i3, i4⟩ := ih g1 na
        refine ⟨?_, ?_, ?_, ?_⟩
        · intro p
          obtain ⟨a1, a2, a3⟩ := i1 p
          obtain ⟨b1, b2, b3⟩ := hfields p
          exact ⟨a1.trans b1, a2.trans b2, a3.trans b3⟩
        · rw [i2]
          have hpred : rest.filter (fun c => !(filteredFree g1 c).isEmpty)
              = rest.filter (fun c => !(filteredFree g c).isEmpty) :=
            List.filter_congr (fun c _ => by rw [hff c])
          have hc0 : (c0 :: rest).filter (fun c => !(filteredFree g c).isEmpty)
              = rest.filter (fun c => !(filteredFree g c).isEmpty) := by
            rw [List.filter_cons]
            simp [hf]
          rw [hpred, hc0]
        · intro p hp
          have := i3 p hp
          by_cases hpc : p = c0
          · subst hpc
            rw [hg1, update_self] at this
            exact absurd this (by simp)
          · rw [hg1, update_other _ _ _ _ hpc] at this
            exact this
        · intro c hc hcf
          rcases List.mem_cons.mp hc with hc | hc
          · subst hc
            by_contra hcon
            have hval : ((stepFold o rest g1 na).1 c).active = true := by
              cases hv : ((stepFold o rest g1 na).1 c).active
              · exact absurd hv hcon
              · rfl
            have := i3 c hval
            rw [hg1, update_self] at this
            exact absurd this (by simp)
          · exact i4 c hc (by rw [hff c]; exact hcf)
      · rw [processCell_fst_nogrow hf (hg c0), processCell_snd_nogrow hf (hg c0)]
        obtain ⟨i1, i2, i3, i4⟩ := ih g (na ++ [c0])
        refine ⟨i1, ?_, i3, ?_⟩
        · rw [i2]
          have hc0 : (c0 :: rest).filter (fun c => !(filteredFree g c).isEmpty)
              = c0 :: rest.filter (fun c => !(filteredFree g c).isEmpty) := by
            rw [List.filter_cons]
            simp [hf]
          rw [hc0, List.append_assoc]
          rfl
        · intro c hc hcf
          rcases List.mem_cons.mp hc with hc | hc
          · subst hc
            exact absurd hcf hf
          · exact i4 c hc hcf

/-! ## Claim C4 (corrected) -/

set_option maxRecDepth 8000 in
/-- C4 counterexample — the claim "with `grow_prob = 0` every active cell
becomes inactive within exactly one `step` and the active set is empty after
that first step" is false on the code: on the 5×5 board seeded at `(2, 2)`,
one zero-growth step (`np.random.rand() < 0` is always false, modelled by
the constantly-false grow coin) leaves `(2, 2)` active and in the active
list, because a cell with a nonempty filtered free-neighbor set is
re-appended to `new_active_cells` regardless of whether it grew. -/
theorem c4_cex :
    (step (idOracle false) sSeeded).active_cells = [(2, 2)] ∧
    ((step (idOracle false) sSeeded).grid (2, 2)).active = true := by
  constructor
  · decide
  · decide

/-- C4 amended — with `grow_prob = 0` (grow coin constantly false), `step`
claims nothing: every cell's `empty`, `color` and `bonds` are unchanged; a
processed cell is deactivated iff its filtered free-neighbor set is empty;
the new active list consists of exactly the processed cells (in shuffled
order) whose filtered free set is nonempty — so the active set needs not be
empty after the first step, and cells with free neighbors stay active. -/
theorem c4_amended (o : Oracle) (s : Jigsaw) (hg : ∀ c, o.grow c = false) :
    (∀ p, ((step o s).grid p).empty = (s.grid p).empty ∧
          ((step o s).grid p).color = (s.grid p).color ∧
          ((step o s).grid p).bonds = (s.grid p).bonds) ∧
    (step o s).active_cells
      = (o.shuffle s.active_cells).filter (fun c => !(filteredFree s.grid c).isEmpty) ∧
    (∀ p, ((step o s).grid p).active = true → (s.grid p).active = true) ∧
    (∀ c ∈ o.shuffle s.active_cells, filteredFree s.grid c = [] →
      ((step o s).grid c).active = false) := by
  obtain ⟨i1, i2, i3, i4⟩ := stepFold_nogrow hg (o.shuffle s.active_cells) s.grid []
  refine ⟨?_, ?_, ?_, ?_⟩
  · intro p; rw [step_grid]; exact i1 p
  · rw [step_active, i2, List.nil_append]
  · intro p; rw [step_grid]; exact i3 p
  · intro c hc hcf; rw [step_grid]; exact i4 c hc hcf

theorem c4_amended_witness :
    (step (idOracle false) sSeeded).active_cells
      = ((idOracle false).shuffle sSeeded.active_cells).filter
          (fun c => !(filteredFree sSeeded.grid c).isEmpty) :=
  (c4_amended (idOracle false) sSeeded (fun _ => rfl)).2.1

/-! ## Counting empty cells: claim C6 machinery -/

theorem allCoords_nodup (R : ℕ) : (allCoords R).Nodup := by
  unfold allCoords
  rw [List.nodup_flatMap]
  constructor
  · intro i _
    refine List.Nodup.map ?_ (List.nodup_range R)
    intro a b hab
    rw [Prod.mk.injEq] at hab
    exact_mod_cast hab.2
  · refine List.Pairwise.imp ?_ (List.pairwise_lt_range R)
    intro a b hab x hx1 hx2
    rw [List.mem_map] at hx1 hx2
    obtain ⟨j1, _, rfl⟩ := hx1
    obtain ⟨j2, _, heq⟩ := hx2
    rw [Prod.mk.injEq] at heq
    have : b = a := by exact_mod_cast heq.1
    omega

theorem allCoords_length (R : ℕ) : (allCoords R).length = R * R := by
  unfold allCoords
  rw [List.length_flatMap]
  have h : (List.map (List.length ∘ fun (i : ℕ) =>
      List.map (fun (j : ℕ) => ((i : ℤ), (j : ℤ))) (List.range R)) (List.range R))
      = List.replicate R R := by
    rw [show (List.length ∘ fun (i : ℕ) =>
        List.map (fun (j : ℕ) => ((i : ℤ), (j : ℤ))) (List.range R))
        = fun _ => R from funext fun i => by simp]
    rw [List.map_const', List.length_range]
  rw [h, List.sum_replicate, smul_eq_mul]

theorem countP_lt {α : Type} : ∀ {l : List α}, l.Nodup → ∀ {P Q : α → Bool},
    (∀ x ∈ l, Q x = true → P x = true) → ∀ {p₀ : α}, p₀ ∈ l → P p₀ = true →
    Q p₀ = false → l.countP Q < l.countP P := by
  intro l
  induction l with
  | nil =>
      intro _ P Q _ p₀ hp₀
      exact absurd hp₀ (List.not_mem_nil p₀)
  | cons x xs ih =>
      intro hnd P Q hmono p₀ hp₀ hP hQ
      obtain ⟨hx, hxs⟩ := List.nodup_cons.mp hnd
      have hmono' : ∀ y ∈ xs, Q y = true → P y = true :=
        fun y hy => hmono y (List.mem_cons_of_mem x hy)
      rw [List.countP_cons, List.countP_cons]
      rcases List.mem_cons.mp hp₀ with hx0 | hx0
      · subst hx0
        rw [hQ, hP]
        simp only [Bool.false_eq_true, if_false, if_true]
        have := List.countP_mono_left (l := xs) hmono'
        omega
      · have hstrict := ih hxs hmono' hx0 hP hQ
        have hif : (if Q x = true then 1 else 0) ≤ (if P x = true then 1 else 0) := by
          cases hQx : Q x
          · simp
          · rw [hmono x (List.mem_cons_self x xs) hQx]
        omega

theorem ecount_eq_countP (R : ℕ) (g : Grid) :
    ecount R g = (allCoords R).countP (fun p => (g p).empty) := by
  unfold ecount
  rw [List.countP_eq_length_filter]

theorem ecount_mono {R : ℕ} {g g' : Grid}
    (h : ∀ p, (g' p).empty = true → (g p).empty = true) : ecount R g' ≤ ecount R g := by
  rw [ecount_eq_countP, ecount_eq_countP]
  exact List.countP_mono_left (fun x _ hx => h x hx)

theorem ecount_strict {R : ℕ} {g g' : Grid}
    (hmono : ∀ p, (g' p).empty = true → (g p).empty = true) {p₀ : Coord}
    (hin : inGrid R p₀) (hP : (g p₀).empty = true) (hQ : (g' p₀).empty = false) :
    ecount R g' < ecount R g := by
  rw [ecount_eq_countP, ecount_eq_countP]
  exact countP_lt (allCoords_nodup R) (fun x _ hx => hmono x hx)
    (mem_allCoords.mpr hin) hP hQ

theorem growGrid_back {o : Oracle} {g : Grid} {coo : Coord}
    (hf : ¬filteredFree g coo = []) (p : Coord)
    (h : (growGrid o g coo p).empty = true) : (g p).empty = true := by
  by_cases hpt : p = nbr coo (chosenIdx o g coo)
  · rw [hpt, growGrid_apply_tgt hf] at h
    exact absurd h (by simp)
  · by_cases hpc : p = coo
    · subst hpc
      rw [growGrid_apply_coo hf] at h
      exact h
    · rw [growGrid_apply_other hpc hpt] at h
      exact h

theorem growGrid_ecount {o : Oracle} {g : Grid} {coo : Coord} {R : ℕ}
    (hf : ¬filteredFree g coo = []) (hint : interior R coo) :
    ecount R (growGrid o g coo) < ecount R g := by
  have hQ : (growGrid o g coo (nbr coo (chosenIdx o g coo))).empty = false := by
    rw [growGrid_apply_tgt hf]
  exact ecount_strict (growGrid_back hf) (inGrid_nbr hint (chosenIdx_lt hf))
    (chosen_tgt_empty hf) hQ

theorem stepFold_ecount_mono {o : Oracle} (L : List Coord) (g : Grid) (na : List Coord)
    (R : ℕ) : ecount R (stepFold o L g na).1 ≤ ecount R g :=
  ecount_mono (fun p hp => (stepFold_back L g na p hp).1)

theorem stepFold_p1_strict {o : Oracle} (hg : ∀ c, o.grow c = true) {R : ℕ} :
    ∀ (L : List Coord) (g : Grid) (na : List Coord), (∀ c ∈ L, interior R c) →
    na.length < (stepFold o L g na).2.length →
    ecount R (stepFold o L g na).1 < ecount R g := by
  intro L
  induction L with
  | nil =>
      intro g na _ hlen
      rw [stepFold_nil] at hlen
      exact absurd hlen (lt_irrefl _)
  | cons c0 rest ih =>
      intro g na hint hlen
      rw [stepFold_cons] at hlen ⊢
      by_cases hf : filteredFree g c0 = []
      · rw [processCell_fst_dead hf, processCell_snd_dead hf] at hlen ⊢
        have hcongr : ecount R (update g c0 { g c0 with active := false }) = ecount R g := by
          rw [ecount_eq_countP, ecount_eq_countP]
          refine List.countP_congr ?_
          intro p _
          by_cases hp : p = c0
          · subst hp; rw [update_self]
          · rw [update_other _ _ _ _ hp]
        rw [← hcongr]
        exact ih _ _ (fun c hc => hint c (List.mem_cons_of_mem c0 hc)) hlen
      · rw [processCell_fst_grow hf (hg c0), processCell_snd_grow hf (hg c0)] at hlen ⊢
        have h1 : ecount R (growGrid o g c0) < ecount R g :=
          growGrid_ecount hf (hint c0 (List.mem_cons_self c0 rest))
        have h2 : ecount R (stepFold o rest (growGrid o g c0)
            (na ++ [nbr c0 (chosenIdx o g c0), c0])).1 ≤ ecount R (growGrid o g c0) :=
          stepFold_ecount_mono rest _ _ R
        omega

theorem runSteps_converges :
    ∀ (os : List Oracle) (s : Jigsaw), WF s →
    (∀ o ∈ os, OracleOK o ∧ ∀ c, o.grow c = true) →
    ecount s.res s.grid < os.length → (runSteps os s).active_cells = [] := by
  intro os
  induction os with
  | nil =>
      intro s _ _ hlen
      exact absurd hlen (by simp)
  | cons o rest ih =>
      intro s hWF hos hlen
      obtain ⟨hOK, hgrow⟩ := hos o (List.mem_cons_self o rest)
      rw [runSteps_cons]
      split_ifs with hstop
      · exact hstop
      · refine ih (step o s) (step_WF hOK hWF)
          (fun o' ho' => hos o' (List.mem_cons_of_mem o ho')) ?_
        have hint : ∀ c ∈ o.shuffle s.active_cells, interior s.res c := by
          intro c hc
          exact hWF.activeInt c ((hOK s.active_cells).mem_iff.mp hc)
        have hpos : 0 < (step o s).active_cells.length := List.length_pos.mpr hstop
        rw [step_active] at hpos
        have hstrict : ecount s.res (stepFold o (o.shuffle s.active_cells) s.grid []).1
            < ecount s.res s.grid :=
          stepFold_p1_strict hgrow (o.shuffle s.active_cells) s.grid [] hint (by simpa using hpos)
        rw [step_res, step_grid]
        rw [List.length_cons] at hlen
        omega

/-! ## Claim C6 -/

/-- C6 — Termination at `grow_prob = 1`: from any reachable state, running
the step loop (`Jigsaw.steps`, modelled by `runSteps` with one oracle per
generation) with grow coins constantly true (the semantics of
`np.random.rand() < 1`) and a step budget of at least `res * res` (the
number of grid cells) always converges: the active set is empty afterwards.
Each generation either claims at least one new cell — strictly decreasing
the number of empty grid cells — or deactivates every remaining active cell. -/
theorem c6_convergence (s : Jigsaw) (h : Reach s) (os : List Oracle)
    (hos : ∀ o ∈ os, OracleOK o ∧ ∀ c, o.grow c = true)
    (hlen : s.res * s.res ≤ os.length) : (runSteps os s).active_cells = [] := by
  have hWF := reach_WF h
  have hres := hWF.hres
  have h00 : (s.grid (0, 0)).empty = false := by
    refine hWF.ringW (0, 0) ?_ (Or.inl rfl)
    unfold inGrid
    refine ⟨by omega, by simp; omega, by omega, by simp; omega⟩
  have hlt : ecount s.res s.grid < s.res * s.res := by
    rw [ecount_eq_countP]
    have hcount : (allCoords s.res).countP (fun p => (s.grid p).empty)
        < (allCoords s.res).countP (fun _ => true) :=
      countP_lt (allCoords_nodup s.res) (fun x _ _ => rfl)
        (mem_allCoords.mpr (by
          unfold inGrid
          exact ⟨by omega, by simp; omega, by omega, by simp; omega⟩)) rfl h00
    have htrue : (allCoords s.res).countP (fun _ => true) = (allCoords s.res).length := by
      rw [List.countP_true]
    rw [htrue, allCoords_length] at hcount
    exact hcount
  exact runSteps_converges os s hWF hos (by omega)

set_option maxRecDepth 8000 in
theorem c6_convergence_witness :
    (runSteps (List.replicate 25 (idOracle true)) sSeeded).active_cells = [] :=
  c6_convergence sSeeded reach_sSeeded _
    (fun o ho => by
      rw [List.eq_of_mem_replicate ho]
      exact ⟨idOracle_OK true, fun _ => rfl⟩)
    (by decide)

/-! ## The seeding contract: claim C7 machinery -/

theorem trySeed_exhaust {s : Jigsaw} {md : ℚ} {c : ℤ} :
    ∀ (samples : List Coord), (∀ idx ∈ samples, goodB s md idx = false) →
    trySeed samples md c s = s := by
  intro samples
  induction samples with
  | nil => intro _; rfl
  | cons idx rest ih =>
      intro hbad
      have hidx := hbad idx (List.mem_cons_self idx rest)
      rw [trySeed_cons]
      split_ifs with h1 h2
      · exact ih (fun j hj => hbad j (List.mem_cons_of_mem idx hj))
      · exfalso
        rw [Bool.not_eq_true] at h1
        rw [goodB, h1, h2] at hidx
        exact absurd hidx (by simp)
      · exact ih (fun j hj => hbad j (List.mem_cons_of_mem idx hj))

theorem trySeed_success {s : Jigsaw} {md : ℚ} {c : ℤ} :
    ∀ (pre : List Coord) (idx : Coord) (post : List Coord),
    (∀ j ∈ pre, goodB s md j = false) → goodB s md idx = true →
    trySeed (pre ++ idx :: post) md c s = seedClaim s idx c := by
  intro pre
  induction pre with
  | nil =>
      intro idx post _ hgood
      rw [goodB, Bool.and_eq_true, Bool.not_eq_true'] at hgood
      rw [List.nil_append, trySeed_cons, if_neg (by rw [hgood.1]; simp), if_pos hgood.2]
  | cons j pre' ih =>
      intro idx post hbad hgood
      have hj := hbad j (List.mem_cons_self j pre')
      rw [List.cons_append, trySeed_cons]
      split_ifs with h1 h2
      · exact ih idx post (fun q hq => hbad q (List.mem_cons_of_mem j hq)) hgood
      · exfalso
        rw [Bool.not_eq_true] at h1
        rw [goodB, h1, h2] at hj
        exact absurd hj (by simp)
      · exact ih idx post (fun q hq => hbad q (List.mem_cons_of_mem j hq)) hgood

/-! ## Claim C7 -/

/-- C7 — Seed placement contract, per piece.  A sampled coordinate is
accepted (`goodB`) iff it is not within distance `min_dist` of any
already-active cell (during seeding those are exactly the previously placed
seeds) and its cell is unclaimed and not walled.  First conjunct: if every
sample in the budget is rejected, the seeding attempt returns the state
unchanged — a silent failure with no exception (the function is total), no
change for this piece, and all previously placed seeds intact.  Second
conjunct: the first accepted sample `idx` is claimed: the state becomes
`seedClaim s idx c`, which sets that cell's color to `c`, `empty` to
`False`, appends `idx` to the active list and leaves every other cell
untouched.  Third conjunct: the sample budget `initiate_pieces` hands each
piece (`mkSamples`) is exactly 1000 coordinates.  Fourth conjunct:
`initiate_pieces` is precisely the fold of this per-piece loop over the
piece ids `1 .. num_pieces`, with `num_pieces` recorded first. -/
theorem c7_seed_contract (s : Jigsaw) (samples : List Coord) (md : ℚ) (c : ℤ) :
    ((∀ idx ∈ samples, goodB s md idx = false) → trySeed samples md c s = s) ∧
    (∀ (pre : List Coord) (idx : Coord) (post : List Coord),
      samples = pre ++ idx :: post → (∀ j ∈ pre, goodB s md j = false) →
      goodB s md idx = true → trySeed samples md c s = seedClaim s idx c) ∧
    (∀ (R : ℕ) (f : ℕ → ℕ × ℕ), (mkSamples R f).length = 1000) ∧
    (∀ (sample : ℤ → ℕ → ℕ × ℕ) (n : ℕ),
      initiatePieces sample md n s
        = (pieceIds n).foldl
            (fun st cc => trySeed (mkSamples st.res (sample cc)) md cc st)
            { s with num_pieces := n }) := by
  refine ⟨trySeed_exhaust samples, ?_, ?_, fun sample n => rfl⟩
  · intro pre idx post hsplit hbad hgood
    rw [hsplit]
    exact trySeed_success pre idx post hbad hgood
  · intro R f
    unfold mkSamples
    rw [List.length_map, List.length_range]

theorem c7_seed_contract_witness :
    trySeed [(0, 0), (2, 2)] 0 1 jig3 = seedClaim jig3 (2, 2) 1 :=
  (c7_seed_contract jig3 [(0, 0), (2, 2)] 0 1).2.1 [(0, 0)] (2, 2) [] rfl
    (by decide) (by decide)

/-! ## Claim C8 -/

/-- C8 — Border mask correctness.  With the stored side length
`R = res + 2`: (1) on the rectangular border, a grid cell is walled
(`active = False ∧ empty = False`) iff its row or column index is `0` or
`R - 1`; (2) every other grid cell is unclaimed (`empty = True`,
`active = True`, no color); (3) with the circular mask, a grid cell is
walled iff its distance from the grid center exceeds `R/2 - 1.1`, expressed
exactly over `ℚ` (`sqrt s > m ↔ m < 0 ∨ m² < s`, with
`x = i - R/2 + 1/2`, `y = j - R/2 + 1/2`); (4) the circular walled set is
symmetric under the 90° grid rotation `(i, j) ↦ (j, R - 1 - i)`. -/
theorem c8_border_masks (res : ℕ) (p : Coord) :
    (inGrid (res + 2) p →
      (walled (mkJigsaw res false) p ↔
        (p.1 = 0 ∨ p.1 = (res + 2 : ℤ) - 1 ∨ p.2 = 0 ∨ p.2 = (res + 2 : ℤ) - 1))) ∧
    (inGrid (res + 2) p →
      ¬(p.1 = 0 ∨ p.1 = (res + 2 : ℤ) - 1 ∨ p.2 = 0 ∨ p.2 = (res + 2 : ℤ) - 1) →
      ((mkJigsaw res false).grid p).empty = true ∧
      ((mkJigsaw res false).grid p).active = true ∧
      ((mkJigsaw res false).grid p).color = none) ∧
    (inGrid (res + 2) p →
      (walled (mkJigsaw res true) p ↔
        (((res : ℚ) + 2) / 2 - 1.1 < 0 ∨
         (((res : ℚ) + 2) / 2 - 1.1) ^ 2 <
           ((p.1 : ℚ) - ((res : ℚ) + 2) / 2 + 1 / 2) ^ 2 +
           ((p.2 : ℚ) - ((res : ℚ) + 2) / 2 + 1 / 2) ^ 2))) ∧
    (inGrid (res + 2) p →
      (walled (mkJigsaw res true) p ↔
        walled (mkJigsaw res true) (p.2, (res + 2 : ℤ) - 1 - p.1))) := by
  have hrect : ∀ q : Coord, walled (mkJigsaw res false) q ↔ q ∈ borderCoords (res + 2) := by
    intro q
    unfold walled
    rw [mkJigsaw_rect_grid]
    split_ifs with hmem
    · exact iff_of_true ⟨rfl, rfl⟩ hmem
    · refine iff_of_false ?_ hmem
      rintro ⟨ha, _⟩
      exact absurd ha (by simp [mkDot])
  have hcast : ((res + 2 : ℕ) : ℚ) = (res : ℚ) + 2 := by push_cast; ring
  have hcirc : ∀ q : Coord, inGrid (res + 2) q →
      (walled (mkJigsaw res true) q ↔
        (((res : ℚ) + 2) / 2 - 1.1 < 0 ∨
         (((res : ℚ) + 2) / 2 - 1.1) ^ 2 <
           ((q.1 : ℚ) - ((res : ℚ) + 2) / 2 + 1 / 2) ^ 2 +
           ((q.2 : ℚ) - ((res : ℚ) + 2) / 2 + 1 / 2) ^ 2)) := by
    intro q hin
    unfold walled
    rw [mkJigsaw_circ_grid]
    split_ifs with hmem
    · obtain ⟨_, hcond⟩ := hmem
      unfold circCond at hcond
      rw [Bool.or_eq_true, decide_eq_true_eq, decide_eq_true_eq, hcast] at hcond
      exact ⟨fun _ => hcond, fun _ => ⟨rfl, rfl⟩⟩
    · rw [not_and_or] at hmem
      rcases hmem with hmem | hmem
      · exact absurd (mem_allCoords.mpr hin) hmem
      · constructor
        · intro ⟨ha, _⟩
          exact absurd ha (by simp [mkDot])
        · intro hcond
          exfalso
          apply hmem
          unfold circCond
          rw [Bool.or_eq_true, decide_eq_true_eq, decide_eq_true_eq, hcast]
          exact hcond
  refine ⟨?_, ?_, hcirc p, ?_⟩
  · intro hin
    rw [hrect p, mem_borderCoords]
    obtain ⟨h1, h2, h3, h4⟩ := hin
    constructor
    · rintro (⟨_, hb⟩ | ⟨ha, _⟩) <;> omega
    · intro h
      rcases h with h | h | h | h
      · right; exact ⟨Or.inl h, h3, h4⟩
      · right; exact ⟨Or.inr h, h3, h4⟩
      · left; exact ⟨⟨h1, h2⟩, Or.inl h⟩
      · left; exact ⟨⟨h1, h2⟩, Or.inr h⟩
  · intro hin hr
    have hnotmem : p ∉ borderCoords (res + 2) := by
      rw [mem_borderCoords]
      obtain ⟨h1, h2, h3, h4⟩ := hin
      push_neg at hr
      rintro (⟨_, hb | hb⟩ | ⟨ha | ha, _⟩) <;> omega
    rw [mkJigsaw_rect_grid, if_neg hnotmem]
    exact ⟨rfl, rfl, rfl⟩
  · intro hin
    have hin' : inGrid (res + 2) (p.2, (res + 2 : ℤ) - 1 - p.1) := by
      obtain ⟨h1, h2, h3, h4⟩ := hin
      exact ⟨by omega, by dsimp only; omega, by dsimp only; omega, by dsimp only; omega⟩
    rw [hcirc p hin, hcirc _ hin']
    have hsum :
        (((p.2, (res + 2 : ℤ) - 1 - p.1).1 : ℚ) - ((res : ℚ) + 2) / 2 + 1 / 2) ^ 2 +
          (((p.2, (res + 2 : ℤ) - 1 - p.1).2 : ℚ) - ((res : ℚ) + 2) / 2 + 1 / 2) ^ 2
        = ((p.1 : ℚ) - ((res : ℚ) + 2) / 2 + 1 / 2) ^ 2 +
          ((p.2 : ℚ) - ((res : ℚ) + 2) / 2 + 1 / 2) ^ 2 := by
      dsimp only
      push_cast
      ring
    rw [hsum]

theorem c8_border_masks_witness : walled (mkJigsaw 3 false) (0, 2) :=
  ((c8_border_masks 3 (0, 2)).1 (by decide)).mpr (Or.inl rfl)

/-! ## Claim C9 machinery -/

theorem trySeed_colors {md : ℚ} {c : ℤ} :
    ∀ (samples : List Coord) (s : Jigsaw) (p : Coord),
    ((trySeed samples md c s).grid p).color = (s.grid p).color ∨
    ((trySeed samples md c s).grid p).color = some c := by
  intro samples
  induction samples with
  | nil => exact fun s p => Or.inl rfl
  | cons idx rest ih =>
      intro s p
      rw [trySeed_cons]
      split_ifs with h1 h2
      · exact ih s p
      · by_cases hp : p = idx
        · subst hp
          right
          simp [seedClaim, update_self]
        · left
          simp [seedClaim, update_other _ _ _ _ hp]
      · exact ih s p

theorem initiatePieces_colors (sample : ℤ → ℕ → ℕ × ℕ) (md : ℚ) (n : ℕ) (s : Jigsaw)
    (p : Coord) :
    ((initiatePieces sample md n s).grid p).color = (s.grid p).color ∨
    ∃ cc ∈ pieceIds n, ((initiatePieces sample md n s).grid p).color = some cc := by
  rw [initiatePieces_eq]
  have hgen : ∀ (L : List ℤ) (t : Jigsaw), (∀ cc ∈ L, cc ∈ pieceIds n) →
      ((L.foldl (fun st cc => trySeed (mkSamples st.res (sample cc)) md cc st) t).grid p).color
        = (t.grid p).color ∨
      ∃ cc ∈ pieceIds n,
        ((L.foldl (fun st cc => trySeed (mkSamples st.res (sample cc)) md cc st) t).grid p).color
          = some cc := by
    intro L
    induction L with
    | nil => exact fun t _ => Or.inl rfl
    | cons c0 rest ihL =>
        intro t hsub
        rw [List.foldl_cons]
        rcases ihL (trySeed (mkSamples t.res (sample c0)) md c0 t)
            (fun cc hcc => hsub cc (List.mem_cons_of_mem c0 hcc)) with h | h
        · rcases trySeed_colors (mkSamples t.res (sample c0)) t p with h2 | h2
          · exact Or.inl (h.trans h2)
          · exact Or.inr ⟨c0, hsub c0 (List.mem_cons_self c0 rest), h.trans h2⟩
        · exact Or.inr h
  exact hgen (pieceIds n) { s with num_pieces := n } (fun cc hcc => hcc)

/-! ## Claim C9 (corrected) -/

/-- C9 counterexample — the claim "for every `num_pieces` the filler color
of `complete` is distinct from the real piece ids `1 .. num_pieces` assigned
by the seeder" fails at `num_pieces = 1000`: `complete` hard-codes the
sentinel color `1000`, which is itself one of the piece ids the seeder loop
`for c in range(1, num_pieces + 1)` walks when `num_pieces = 1000`. -/
theorem c9_cex : fillerColor ∈ pieceIds 1000 := by
  unfold pieceIds fillerColor
  rw [List.mem_map]
  exact ⟨999, by rw [List.mem_range]; omega, by norm_num⟩

/-- C9 amended — for every `num_pieces < 1000`, the synthetic filler color
`1000` that `complete` assigns (via `fillClaim`, third conjunct) is distinct
from every real piece id in `1 .. num_pieces` (first conjunct), and the
seeder can only ever color a cell with one of those piece ids (second
conjunct); at `num_pieces ≥ 1000` the sentinel collides with piece id
`1000`. -/
theorem c9_amended (n : ℕ) (hn : n < 1000) :
    fillerColor ∉ pieceIds n ∧
    (∀ (sample : ℤ → ℕ → ℕ × ℕ) (md : ℚ) (s : Jigsaw) (p : Coord),
      ((initiatePieces sample md n s).grid p).color = (s.grid p).color ∨
      ∃ cc ∈ pieceIds n, ((initiatePieces sample md n s).grid p).color = some cc) ∧
    (∀ (s : Jigsaw) (p : Coord), ((fillClaim s p).grid p).color = some fillerColor) := by
  refine ⟨?_, fun sample md s p => initiatePieces_colors sample md n s p, ?_⟩
  · intro hmem
    unfold pieceIds fillerColor at hmem
    rw [List.mem_map] at hmem
    obtain ⟨k, hk, heq⟩ := hmem
    rw [List.mem_range] at hk
    omega
  · intro s p
    simp [fillClaim, update_self]

theorem c9_amended_witness : fillerColor ∉ pieceIds 11 :=
  (c9_amended 11 (by decide)).1

end RWJigsaw
